import Mathlib

/-!
Verification development for the vitest-bdd compile-time transform and runtime
executor.

The development shallowly embeds two components of the repository:

* `src/runtime.ts` — the runtime registration/execution primitives
  (`__given`, `__when`, `__it`).  JavaScript in-place mutation and `await`
  sequencing are modelled by explicit state passing: an effectful JS function
  becomes a Lean function `σ → σ × α` on an abstract world `σ`, and the value
  component of a mutable object after a call is returned explicitly.

* `src/transform.ts` — the source-to-source rewriter.  The relevant fragment
  of the TypeScript AST is embedded as the inductive type `Node`; the
  locator (`parseBddCall`/`collectBddCalls`), classifier
  (`referencesIdentifier`, `isInputsModifier`, `isPerformStatement`, ...)
  and rewriter (`transformGiven`/`transformWhen`/`transformIt`,
  `transformBddSyntax`) are translated function by function.  MagicString's
  offset-based text edits are modelled structurally: each per-call edit set
  (callee replacement, config insertion, statement removal, parameter-list
  rewrite, trailing-argument append, import prepend) becomes the
  corresponding AST-level rewrite.  Extracted expressions and moved
  statements are inserted verbatim (unrewritten), mirroring
  `getNodeText(code, node)` slicing the original source.
-/

/-! ## Runtime model (src/runtime.ts) -/

/-- Structure `RuntimeContext` from src/runtime.ts lines 3–12.  `σ` is the abstract
world threaded through effectful calls; `I` and `S` are the value contents of
the inputs object and the subject.  `inputs`/`subject` are the factories,
`modifiers`/`performs` the accumulated chains. -/
structure RuntimeContext (σ I S : Type) where
  inputs : σ → σ × I
  subject : I → σ → σ × S
  modifiers : List (I → σ → σ × I)
  performs : List (S → σ → σ × S)

/-- Structure `GivenConfig` from src/runtime.ts lines 14–17. -/
structure GivenConfig (σ I S : Type) where
  inputs : σ → σ × I
  subject : I → σ → σ × S

/-- Structure `WhenConfig` from src/runtime.ts lines 19–22 (both fields optional). -/
structure WhenConfig (σ I S : Type) where
  modifier : Option (I → σ → σ × I)
  perform : Option (S → σ → σ × S)

/-- The context built by `__given` (src/runtime.ts lines 33–40): the supplied
factories and empty chains. -/
def givenMakeCtx {σ I S : Type} (config : GivenConfig σ I S) : RuntimeContext σ I S :=
  { inputs := config.inputs
    subject := config.subject
    modifiers := []
    performs := [] }

/-- The spread `[...(config.modifier ? [config.modifier] : [])]` from src/runtime.ts
lines 55–56. -/
def optToList {α : Type} : Option α → List α
  | some a => [a]
  | none => []

/-- The child context built by `__when` (src/runtime.ts lines 51–58): parent
factories are shared, parent chains are copied with the optional
modifier/perform appended. -/
def whenMakeCtx {σ I S : Type} (config : WhenConfig σ I S)
    (parentCtx : RuntimeContext σ I S) : RuntimeContext σ I S :=
  { inputs := parentCtx.inputs
    subject := parentCtx.subject
    modifiers := parentCtx.modifiers ++ optToList config.modifier
    performs := parentCtx.performs ++ optToList config.perform }

/-- The `for (const mod of ctx.modifiers) mod(inputs)` /
`for (const perform of ctx.performs) await perform(subject)` loops of
src/runtime.ts lines 70–72 and 74–76: run the chain entries left to right,
threading the world and the mutated object's contents. -/
def runChain {σ α : Type} : List (α → σ → σ × α) → α → σ → σ × α
  | [], a, s => (s, a)
  | f :: fs, a, s =>
      let r := f a s
      runChain fs r.2 r.1

/-- The test-case closure registered by `__it` (src/runtime.ts lines 68–78):
call `ctx.inputs()`, run the modifier chain on the fresh inputs, call
`ctx.subject(inputs)`, run (awaiting sequentially) the perform chain on the
subject, then invoke the test body.  Besides the final world it returns the
final inputs contents passed to the subject factory and the subject contents
passed to the test body, so that theorems can speak about the values a test
case observes. -/
def itTestBody {σ I S : Type} (ctx : RuntimeContext σ I S)
    (testFn : S → σ → σ) (s : σ) : σ × I × S :=
  let ri := ctx.inputs s
  let rm := runChain ctx.modifiers ri.2 ri.1
  let rs := ctx.subject rm.2 rm.1
  let rp := runChain ctx.performs rs.2 rs.1
  (testFn rp.2 rp.1, rm.2, rp.2)

/-! ### Instrumentation for the execution-order claim -/

/-- One observable step of an `__it` execution. -/
inductive RunEvent where
  | inputsCalled
  | modifierCalled (j : Nat)
  | subjectCalled
  | performCalled (j : Nat)
  | testBodyCalled
  deriving DecidableEq, Repr

/-- The instrumented world: the list of steps performed so far. -/
abbrev RunTrace := List RunEvent

/-- Logging inputs factory: records the call, returns inputs contents 0. -/
def logInputs : RunTrace → RunTrace × Nat :=
  fun t => (t ++ [RunEvent.inputsCalled], 0)

/-- Logging subject factory: records the call, subject = final inputs. -/
def logSubject : Nat → RunTrace → RunTrace × Nat :=
  fun i t => (t ++ [RunEvent.subjectCalled], i)

/-- Logging modifier contributed by the `when` at chain position `j`. -/
def logModifier (j : Nat) : Nat → RunTrace → RunTrace × Nat :=
  fun i t => (t ++ [RunEvent.modifierCalled j], i)

/-- Logging perform contributed by the `when` at chain position `j`. -/
def logPerform (j : Nat) : Nat → RunTrace → RunTrace × Nat :=
  fun x t => (t ++ [RunEvent.performCalled j], x)

/-- Logging test body. -/
def logTestFn : Nat → RunTrace → RunTrace :=
  fun _ t => t ++ [RunEvent.testBodyCalled]

/-- The context reaching an `it` under a `given` followed by a `when` chain of
depth `D`, where the `when` at depth `j` (outermost = 0) contributes the
logging modifier `j` and logging perform `j`: a fold of `whenMakeCtx` over
`givenMakeCtx`, exactly the registration path `__given` → `__when`^D. -/
def chainedCtx (D : Nat) : RuntimeContext RunTrace Nat Nat :=
  (List.range D).foldl
    (fun ctx j => whenMakeCtx ⟨some (logModifier j), some (logPerform j)⟩ ctx)
    (givenMakeCtx ⟨logInputs, logSubject⟩)

/-! ### Value-independence hypotheses for the isolation claim -/

/-- A factory whose returned contents do not depend on the world it is called
in: it allocates a fresh value sharing no mutable state with anything the
world holds (the world component may still change, e.g. an allocation
counter). -/
def freshFactory {σ I : Type} (f : σ → σ × I) : Prop :=
  ∀ s s', (f s).2 = (f s').2

/-- A step function whose effect on its argument's contents depends only on
that argument, not on the world (mutation of the receiver plus arbitrary
world effects, but no reads of other cases' state). -/
def argDetermined {σ α β : Type} (f : α → σ → σ × β) : Prop :=
  ∀ a s s', (f a s).2 = (f a s').2

/-! ## Transform model (src/transform.ts) -/

/-- The `BddCallKind` union type (src/transform.ts line 4): `"given" | "when"
| "it"`. -/
inductive BddKind where
  | givenK
  | whenK
  | itK
  deriving DecidableEq, Repr

/-- The `.skip` / `.only` modifier (src/transform.ts line 10). -/
inductive ExecMode where
  | skip
  | only
  deriving DecidableEq, Repr

/-- The fragment of the TypeScript AST the transform inspects.  `many` stands
for any other construct (loops, conditionals, blocks, array literals,
declarations, ...) whose children are traversed generically by
`ts.forEachChild`.  Arrow/function parameters are identifier names; an
arrow's body is either a statement block (`arrowB`) or a single expression
(`arrowE`); a function expression (`funcB`) always has a block.  `assign`
is a `BinaryExpression` with the `=` operator token. -/
inductive Node where
  | ident (name : String)
  | strLit (s : String)
  | numLit (n : Int)
  | propAccess (obj : Node) (name : String)
  | call (callee : Node) (args : List Node)
  | arrowB (isAsync : Bool) (params : List String) (stmts : List Node)
  | arrowE (isAsync : Bool) (params : List String) (body : Node)
  | funcB (isAsync : Bool) (params : List String) (stmts : List Node)
  | assign (lhs : Node) (rhs : Node)
  | objLit (fields : List Node)
  | objField (name : String) (value : Node)
  | asCast (e : Node)
  | satCast (e : Node)
  | paren (e : Node)
  | exprStmt (e : Node)
  | importNamed (names : List String)
  | many (children : List Node)

/-- A source file is its list of top-level statements
(`sourceFile.statements`). -/
abbrev SourceFileAst := List Node

/-- Function `parseBddCall` (src/transform.ts lines 45–73), applied to the call's
callee expression: a bare identifier `given`/`when`/`it`, or a property
access `given.skip`, `when.only`, ... -/
def parseBddKind : Node → Option (BddKind × Option ExecMode)
  | Node.ident "given" => some (BddKind.givenK, none)
  | Node.ident "when" => some (BddKind.whenK, none)
  | Node.ident "it" => some (BddKind.itK, none)
  | Node.propAccess (Node.ident obj) prop =>
      match (match obj with
             | "given" => some BddKind.givenK
             | "when" => some BddKind.whenK
             | "it" => some BddKind.itK
             | _ => none) with
      | some k =>
          match prop with
          | "skip" => some (k, some ExecMode.skip)
          | "only" => some (k, some ExecMode.only)
          | _ => none
      | none => none
  | _ => none

/-- Whether a node is a function-valued argument (`ts.isArrowFunction` or
`ts.isFunctionExpression`, src/transform.ts line 144). -/
def isFunctionNode : Node → Bool
  | Node.arrowB _ _ _ => true
  | Node.arrowE _ _ _ => true
  | Node.funcB _ _ _ => true
  | _ => false

/-- Function `getCallbackArg` (src/transform.ts lines 141–149): the last argument that
is an arrow function or function expression, `none` otherwise. -/
def getCallbackArg (args : List Node) : Option Node :=
  args.reverse.find? isFunctionNode

/-- Function `getBodyStatements` (src/transform.ts lines 155–162): the block body's
statements, or `none` for an expression-bodied arrow (or a non-function). -/
def getBodyStatements : Node → Option (List Node)
  | Node.arrowB _ _ stmts => some stmts
  | Node.funcB _ _ stmts => some stmts
  | _ => none

/-- The `async` qualifier of a callback (src/transform.ts lines 297–299). -/
def callbackIsAsync : Node → Bool
  | Node.arrowB a _ _ => a
  | Node.arrowE a _ _ => a
  | Node.funcB a _ _ => a
  | _ => false

/-- Function `isInputsAssignment` (src/transform.ts lines 180–188): an expression
statement `$inputs = EXPR`. -/
def isInputsAssignment : Node → Bool
  | Node.exprStmt (Node.assign (Node.ident "$inputs") _) => true
  | _ => false

/-- Function `isSubjectAssignment` (src/transform.ts lines 193–201): an expression
statement `$subject = EXPR`. -/
def isSubjectAssignment : Node → Bool
  | Node.exprStmt (Node.assign (Node.ident "$subject") _) => true
  | _ => false

/-- Function `isInputsModifier` (src/transform.ts lines 206–213): an expression
statement `$inputs.PROP = EXPR` whose left side is a property access whose
object is directly the identifier `$inputs`. -/
def isInputsModifier : Node → Bool
  | Node.exprStmt (Node.assign (Node.propAccess (Node.ident "$inputs") _) _) => true
  | _ => false

/-- The right-hand side of an assignment expression statement (the
`binExpr.right` accesses in src/transform.ts lines 248–258); arbitrary
default on other shapes, which the callers never hit. -/
def rhsOf : Node → Node
  | Node.exprStmt (Node.assign _ r) => r
  | n => n

/-- Function `isObjectLiteralLike` (src/transform.ts lines 130–136): an object literal
possibly wrapped in `as` / `satisfies` / parentheses. -/
def isObjectLiteralLike : Node → Bool
  | Node.objLit _ => true
  | Node.asCast e => isObjectLiteralLike e
  | Node.satCast e => isObjectLiteralLike e
  | Node.paren e => isObjectLiteralLike e
  | _ => false

/-- Function `isItCall` (src/transform.ts lines 218–223): an expression statement that
is an `it(...)` / `it.skip(...)` / `it.only(...)` call. -/
def isItCall : Node → Bool
  | Node.exprStmt (Node.call callee _) =>
      match parseBddKind callee with
      | some (BddKind.itK, _) => true
      | _ => false
  | _ => false

mutual
/-- Function `referencesIdentifier` (src/transform.ts lines 17–39) with
`skipItCallbacks = true` (the only way it is called, via
`isPerformStatement`): does the subtree reference identifier `name`, where a
recognized BDD call contributes only its first argument (the description)?
`ts.forEachChild` of a property access yields the property-name identifier,
and of a function yields its parameter identifiers, so those are checked
too. -/
def refsId (name : String) : Node → Bool
  | Node.ident n => n == name
  | Node.strLit _ => false
  | Node.numLit _ => false
  | Node.propAccess o p => refsId name o || p == name
  | Node.call callee args =>
      match parseBddKind callee with
      | some _ =>
          match args with
          | a :: _ => refsId name a
          | [] => false
      | none => refsId name callee || refsIdList name args
  | Node.arrowB _ ps stmts => ps.any (· == name) || refsIdList name stmts
  | Node.arrowE _ ps body => ps.any (· == name) || refsId name body
  | Node.funcB _ ps stmts => ps.any (· == name) || refsIdList name stmts
  | Node.assign l r => refsId name l || refsId name r
  | Node.objLit fs => refsIdList name fs
  | Node.objField _ v => refsId name v
  | Node.asCast e => refsId name e
  | Node.satCast e => refsId name e
  | Node.paren e => refsId name e
  | Node.exprStmt e => refsId name e
  | Node.importNamed _ => false
  | Node.many ns => refsIdList name ns

def refsIdList (name : String) : List Node → Bool
  | [] => false
  | n :: ns => refsId name n || refsIdList name ns
end

/-- Function `isPerformStatement` (src/transform.ts lines 228–231): not an `it` call,
and references `$subject` (with BDD-call skipping). -/
def isPerformStatement (stmt : Node) : Bool :=
  !isItCall stmt && refsId "$subject" stmt

/-- The three buckets a direct statement of a `when` callback can fall into
(the loop of src/transform.ts lines 325–333). -/
inductive WhenStmtClass where
  | modifier
  | perform
  | body
  deriving DecidableEq, Repr

/-- Classification of one direct statement of a `when` callback, in the
precedence of the loop of src/transform.ts lines 325–333. -/
def classifyStmt (stmt : Node) : WhenStmtClass :=
  if isInputsModifier stmt then WhenStmtClass.modifier
  else if isPerformStatement stmt then WhenStmtClass.perform
  else WhenStmtClass.body

/-- The statement partition computed by `transformWhen` (src/transform.ts
lines 320–333): modifier statements, perform statements and pass-through
body statements, each in source order. -/
def classifyWhenStmts : List Node → List Node × List Node × List Node
  | [] => ([], [], [])
  | s :: rest =>
      let r := classifyWhenStmts rest
      if isInputsModifier s then (s :: r.1, r.2.1, r.2.2)
      else if isPerformStatement s then (r.1, s :: r.2.1, r.2.2)
      else (r.1, r.2.1, s :: r.2.2)

/-- The `{ modifier?: ..., perform?: ... }` configuration object literal
built by `transformWhen` (src/transform.ts lines 336–345): the modifier
statements concatenate, in source order, into one `($inputs) => { ... }`
body, the perform statements into one `($subject) => { ... }` body; an empty
bucket contributes no field.  The moved statements are inserted verbatim
(`getNodeText` slices the original source). -/
def mkConfigWhen (stmts : List Node) : Node :=
  let c := classifyWhenStmts stmts
  Node.objLit
    ((if c.1.isEmpty then []
      else [Node.objField "modifier" (Node.arrowB false ["$inputs"] c.1)]) ++
     (if c.2.1.isEmpty then []
      else [Node.objField "perform" (Node.arrowB false ["$subject"] c.2.1)]))

/-- Result of scanning a `given` callback's direct statements
(src/transform.ts lines 241–261). -/
structure GivenScan where
  inputsE : Option Node
  subjectE : Option Node
  removed : List Node

/-- The `isObjectLiteralLike` parenthesis wrapping applied to an extracted
right-hand side (src/transform.ts lines 251 and 258). -/
def wrapExpr (e : Node) : Node :=
  if isObjectLiteralLike e then Node.paren e else e

/-- The scan loop of `transformGiven` (src/transform.ts lines 246–261):
forward iteration, a later assignment overwrites an earlier one's extracted
expression, every assignment statement is queued for removal in source
order. -/
def givenScanStep (acc : GivenScan) (s : Node) : GivenScan :=
  if isInputsAssignment s then
    { acc with inputsE := some (wrapExpr (rhsOf s)), removed := acc.removed ++ [s] }
  else if isSubjectAssignment s then
    { acc with subjectE := some (wrapExpr (rhsOf s)), removed := acc.removed ++ [s] }
  else acc

def givenScan (stmts : List Node) : GivenScan :=
  stmts.foldl givenScanStep ⟨none, none, []⟩

/-- The `{ inputs?: ..., subject?: ... }` configuration object literal built
by `transformGiven` (src/transform.ts lines 264–271): `inputs: () => E` and
`subject: ($inputs) => F`, in that order, omitting absent parts. -/
def mkConfigGiven (sc : GivenScan) : Node :=
  Node.objLit
    ((match sc.inputsE with
      | some e => [Node.objField "inputs" (Node.arrowE false [] e)]
      | none => []) ++
     (match sc.subjectE with
      | some e => [Node.objField "subject" (Node.arrowE false ["$inputs"] e)]
      | none => []))

/-- Whether `transformGiven`/`transformWhen`/`transformIt` get past their
early returns for a call with these arguments: a callback must exist
(src/transform.ts lines 236, 314, 384) and, for `given`/`when`, it must have
a block body (lines 239, 318).  When this is false the per-call edit set is
empty and the call is left untouched. -/
def shouldRewrite (k : BddKind) (args : List Node) : Bool :=
  match getCallbackArg args with
  | none => false
  | some cb =>
      match k with
      | BddKind.itK => true
      | _ => (getBodyStatements cb).isSome

/-- The internal registration name a collected call's callee is replaced
with (src/transform.ts lines 286, 359, 390). -/
def helperName : BddKind → String
  | BddKind.givenK => "__given"
  | BddKind.whenK => "__when"
  | BddKind.itK => "__it"

/-- The trailing execution-mode argument (`describe.skip`, `test.only`, ...;
src/transform.ts lines 305–309, 375–379, 401–406). -/
def modeArg (k : BddKind) (m : ExecMode) : Node :=
  Node.propAccess
    (Node.ident (match k with
                 | BddKind.itK => "test"
                 | _ => "describe"))
    (match m with
     | ExecMode.skip => "skip"
     | ExecMode.only => "only")

/-- One entry of `collectBddCalls`'s result (src/transform.ts lines 6–11);
the node itself is not recorded here, only what the transform driver and the
claims consume: kind, execution mode and nesting depth. -/
structure CollectedCall where
  kind : BddKind
  mode : Option ExecMode
  depth : Nat

mutual
/-- The recursive visitor of `collectBddCalls` (src/transform.ts lines
85–111): a recognized call is collected when it is a `given` or when the
visit is already inside a `given`; children of a recognized call are visited
at depth + 1 with `insideGiven` also set by a `given`; all other nodes just
recurse.  (Identifier children of property accesses and parameters contain
no call expressions, so skipping them is collection-neutral.) -/
def visitNode (d : Nat) (g : Bool) : Node → List CollectedCall
  | Node.call callee args =>
      match parseBddKind callee with
      | some (k, m) =>
          (if k == BddKind.givenK || g then [⟨k, m, d⟩] else []) ++
            (visitNode (d + 1) (g || k == BddKind.givenK) callee ++
             visitList (d + 1) (g || k == BddKind.givenK) args)
      | none => visitNode d g callee ++ visitList d g args
  | Node.propAccess o _ => visitNode d g o
  | Node.arrowB _ _ stmts => visitList d g stmts
  | Node.arrowE _ _ body => visitNode d g body
  | Node.funcB _ _ stmts => visitList d g stmts
  | Node.assign l r => visitNode d g l ++ visitNode d g r
  | Node.objLit fs => visitList d g fs
  | Node.objField _ v => visitNode d g v
  | Node.asCast e => visitNode d g e
  | Node.satCast e => visitNode d g e
  | Node.paren e => visitNode d g e
  | Node.exprStmt e => visitNode d g e
  | Node.many ns => visitList d g ns
  | Node.ident _ => []
  | Node.strLit _ => []
  | Node.numLit _ => []
  | Node.importNamed _ => []

def visitList (d : Nat) (g : Bool) : List Node → List CollectedCall
  | [] => []
  | n :: ns => visitNode d g n ++ visitList d g ns
end

/-- Function `collectBddCalls` over a whole file (src/transform.ts lines 113–116):
every top-level statement is visited at depth 0, outside any `given`. -/
def collectFile (f : SourceFileAst) : List CollectedCall :=
  visitList 0 false f

/-- Function `importsGiven` (src/transform.ts lines 413–428): some import declaration
has a named import binding called `given`. -/
def importsGivenF (f : SourceFileAst) : Bool :=
  f.any fun s =>
    match s with
    | Node.importNamed names => names.contains "given"
    | _ => false

mutual
/-- Does the subtree contain a call expression recognized by `parseBddCall`
whose kind satisfies `q`?  (Specification-side observation used to reason
about the rewriter's output.) -/
def containsBddSat (q : BddKind → Bool) : Node → Bool
  | Node.call callee args =>
      (match parseBddKind callee with
       | some (k, _) => q k
       | none => false) ||
        (containsBddSat q callee || containsBddSatList q args)
  | Node.propAccess o _ => containsBddSat q o
  | Node.arrowB _ _ stmts => containsBddSatList q stmts
  | Node.arrowE _ _ body => containsBddSat q body
  | Node.funcB _ _ stmts => containsBddSatList q stmts
  | Node.assign l r => containsBddSat q l || containsBddSat q r
  | Node.objLit fs => containsBddSatList q fs
  | Node.objField _ v => containsBddSat q v
  | Node.asCast e => containsBddSat q e
  | Node.satCast e => containsBddSat q e
  | Node.paren e => containsBddSat q e
  | Node.exprStmt e => containsBddSat q e
  | Node.many ns => containsBddSatList q ns
  | Node.ident _ => false
  | Node.strLit _ => false
  | Node.numLit _ => false
  | Node.importNamed _ => false

def containsBddSatList (q : BddKind → Bool) : List Node → Bool
  | [] => false
  | n :: ns => containsBddSat q n || containsBddSatList q ns
end

/-- The subtree contains some recognized BDD call. -/
def containsBdd (n : Node) : Bool :=
  containsBddSat (fun _ => true) n

/-- The subtree contains a recognized `given` call. -/
def containsGiven (n : Node) : Bool :=
  containsBddSat (fun k => k == BddKind.givenK) n

/-- A statement of a `given` callback that the rewrite removes (the two
factory assignments, src/transform.ts lines 247–259). -/
def isGivenRemovedStmt (s : Node) : Bool :=
  isInputsAssignment s || isSubjectAssignment s

/-- A statement of a `when` callback that the rewrite removes (modifier and
perform statements, src/transform.ts line 348). -/
def isWhenRemovedStmt (s : Node) : Bool :=
  isInputsModifier s || isPerformStatement s

/-- The configuration literal inserted for a rewritten `given`/`when` call,
built from the callback's original (unrewritten) direct statements. -/
def configFor (k : BddKind) (args : List Node) : Node :=
  match getCallbackArg args with
  | some cb =>
      match getBodyStatements cb with
      | some stmts =>
          match k with
          | BddKind.givenK => mkConfigGiven (givenScan stmts)
          | _ => mkConfigWhen stmts
      | none => Node.objLit []
  | none => Node.objLit []

/-- The argument-list assembly for a rewritten call, applied to the
already-rewritten argument list `base`: for `given`/`when` the config object
(built from the original arguments) is inserted after the first
(description) argument, mirroring `s.appendLeft(descArg.getEnd(), ...)`;
`, __ctx` is appended for `when`/`it`; the execution-mode argument is
appended last when present (src/transform.ts lines 289–309, 361–379,
400–406). -/
def assembleArgs (k : BddKind) (m : Option ExecMode) (args : List Node)
    (base : List Node) : List Node :=
  let withCfg :=
    match k with
    | BddKind.itK => base
    | _ =>
        match base with
        | [] => []
        | d :: rest => d :: configFor k args :: rest
  let withCtx :=
    match k with
    | BddKind.givenK => withCfg
    | _ => withCfg ++ [Node.ident "__ctx"]
  match m with
  | some mode => withCtx ++ [modeArg k mode]
  | none => withCtx

mutual
/-- The structural model of the per-call text edits (bottom-up application
of `transformGiven` / `transformWhen` / `transformIt` plus the generic
recursion of `collectBddCalls`): `g` is the `insideGiven` flag, so a call is
rewritten exactly when it would be collected and its early-return checks
pass.  A rewritten call gets: callee replaced by the internal registration
name; for `given`/`when` the config object inserted after the first
(description) argument; the callback's parameter list replaced (making it an
arrow); removed statements dropped from the callback body; `, __ctx` (for
`when`/`it`) and the execution-mode argument (for `.skip`/`.only`) appended
after the last argument.  Children keep their own (deeper-first) edits. -/
def rwNode (g : Bool) : Node → Node
  | Node.call callee args =>
      match parseBddKind callee with
      | some (k, m) =>
          if k == BddKind.givenK || g then
            if shouldRewrite k args then
              Node.call (Node.ident (helperName k))
                (assembleArgs k m args (rwArgsFwd k (g || k == BddKind.givenK) args))
            else Node.call callee (rwList (g || k == BddKind.givenK) args)
          else Node.call callee (rwList (g || k == BddKind.givenK) args)
      | none => Node.call (rwNode g callee) (rwList g args)
  | Node.propAccess o p => Node.propAccess (rwNode g o) p
  | Node.arrowB a ps stmts => Node.arrowB a ps (rwList g stmts)
  | Node.arrowE a ps body => Node.arrowE a ps (rwNode g body)
  | Node.funcB a ps stmts => Node.funcB a ps (rwList g stmts)
  | Node.assign l r => Node.assign (rwNode g l) (rwNode g r)
  | Node.objLit fs => Node.objLit (rwList g fs)
  | Node.objField nm v => Node.objField nm (rwNode g v)
  | Node.asCast e => Node.asCast (rwNode g e)
  | Node.satCast e => Node.satCast (rwNode g e)
  | Node.paren e => Node.paren (rwNode g e)
  | Node.exprStmt e => Node.exprStmt (rwNode g e)
  | Node.many ns => Node.many (rwList g ns)
  | Node.ident nm => Node.ident nm
  | Node.strLit s => Node.strLit s
  | Node.numLit n => Node.numLit n
  | Node.importNamed names => Node.importNamed names

def rwList (g : Bool) : List Node → List Node
  | [] => []
  | n :: ns => rwNode g n :: rwList g ns

/-- Process the argument list: the last function-valued element (the one
`getCallbackArg` returns) becomes the rewritten callback — it is recognized
as the function node with no function node after it; everything else is
rewritten generically. -/
def rwArgsFwd (k : BddKind) (g' : Bool) : List Node → List Node
  | [] => []
  | a :: as =>
      if isFunctionNode a && !(as.any isFunctionNode) then
        rwCallback k g' a :: rwList g' as
      else rwNode g' a :: rwArgsFwd k g' as

/-- The callback rewrite: parameter list replaced by the fixed signature of
the call's kind (`(__ctx)` for `given`/`when`, `($subject)` for `it`),
preserving `async`; a function expression's header is overwritten into an
arrow header (src/transform.ts lines 169–175, 295–302, 366–371, 392–398);
removed statements are dropped from the body, the rest keep their own
edits. -/
def rwCallback (k : BddKind) (g' : Bool) : Node → Node
  | Node.arrowB a _ stmts =>
      match k with
      | BddKind.givenK => Node.arrowB a ["__ctx"] (rwStmtsGiven g' stmts)
      | BddKind.whenK => Node.arrowB a ["__ctx"] (rwStmtsWhen g' stmts)
      | BddKind.itK => Node.arrowB a ["$subject"] (rwList g' stmts)
  | Node.arrowE a _ body =>
      match k with
      | BddKind.givenK => Node.arrowE a ["__ctx"] (rwNode g' body)
      | BddKind.whenK => Node.arrowE a ["__ctx"] (rwNode g' body)
      | BddKind.itK => Node.arrowE a ["$subject"] (rwNode g' body)
  | Node.funcB a _ stmts =>
      match k with
      | BddKind.givenK => Node.arrowB a ["__ctx"] (rwStmtsGiven g' stmts)
      | BddKind.whenK => Node.arrowB a ["__ctx"] (rwStmtsWhen g' stmts)
      | BddKind.itK => Node.arrowB a ["$subject"] (rwList g' stmts)
  | n => n

/-- A `given` callback body after the rewrite: the factory-assignment
statements are removed (src/transform.ts lines 274–281), the remaining
statements keep their own edits. -/
def rwStmtsGiven (g' : Bool) : List Node → List Node
  | [] => []
  | s :: ss =>
      if isGivenRemovedStmt s then rwStmtsGiven g' ss
      else rwNode g' s :: rwStmtsGiven g' ss

/-- A `when` callback body after the rewrite: modifier and perform
statements are removed (src/transform.ts lines 348–354), the remaining
statements keep their own edits. -/
def rwStmtsWhen (g' : Bool) : List Node → List Node
  | [] => []
  | s :: ss =>
      if isWhenRemovedStmt s then rwStmtsWhen g' ss
      else rwNode g' s :: rwStmtsWhen g' ss
end

/-- The sorted helper-import list (src/transform.ts lines 451–475):
`usedHelpers` accumulates `__given`/`__when`/`__it` per collected call and is
emitted sorted (`"__given" < "__it" < "__when"` lexicographically). -/
def usedHelperNames (cs : List CollectedCall) : List String :=
  (if cs.any fun c => c.kind == BddKind.givenK then ["__given"] else []) ++
  (if cs.any fun c => c.kind == BddKind.itK then ["__it"] else []) ++
  (if cs.any fun c => c.kind == BddKind.whenK then ["__when"] else [])

/-- The sorted vitest-import list (src/transform.ts lines 459, 464, 469,
477–480): `describe` when a `given`/`when` carries `.skip`/`.only`, `test`
when an `it` does (`"describe" < "test"`). -/
def usedVitestNames (cs : List CollectedCall) : List String :=
  (if cs.any fun c => (c.kind == BddKind.givenK || c.kind == BddKind.whenK)
      && c.mode.isSome then ["describe"] else []) ++
  (if cs.any fun c => c.kind == BddKind.itK && c.mode.isSome then ["test"] else [])

/-- The synthetic import lines prepended to a transformed file
(src/transform.ts lines 474–481). -/
def preludeImports (cs : List CollectedCall) : List Node :=
  Node.importNamed (usedHelperNames cs) ::
    (if (usedVitestNames cs).isEmpty then []
     else [Node.importNamed (usedVitestNames cs)])

/-- Function `transformBddSyntax` (src/transform.ts lines 430–487): `none` when the
file imports `given` or no BDD call is collected; otherwise the rewritten
file, i.e. the synthetic import lines followed by every original statement
carrying its edits. -/
def transformModel (f : SourceFileAst) : Option SourceFileAst :=
  if importsGivenF f then none
  else if (collectFile f).isEmpty then none
  else some (preludeImports (collectFile f) ++ rwList false f)

/-! ## Specification-side definitions

These definitions follow the wording of spec sentences (not the source);
they exist to be compared with the source-derived definitions above. -/

mutual
/-- Spec wording for the collection rule (claim C5): "a when or it call
expression is collected ... if and only if it is lexically nested — at any
depth, through arbitrary control-flow constructs — inside a recognized given
call's callback, while every given call is collected regardless of
nesting."  `g` records being inside a recognized `given` call's callback
argument; only entering a `given`'s callback (its last function-valued
argument) switches it on. -/
def specCollectCb (g : Bool) : Node → List (BddKind × Option ExecMode)
  | Node.call callee args =>
      match parseBddKind callee with
      | some (k, m) =>
          (if k == BddKind.givenK || g then [(k, m)] else []) ++
            (specCollectCb g callee ++
              (if k == BddKind.givenK then specCollectCbArgs g args
               else specCollectCbList g args))
      | none => specCollectCb g callee ++ specCollectCbList g args
  | Node.propAccess o _ => specCollectCb g o
  | Node.arrowB _ _ stmts => specCollectCbList g stmts
  | Node.arrowE _ _ body => specCollectCb g body
  | Node.funcB _ _ stmts => specCollectCbList g stmts
  | Node.assign l r => specCollectCb g l ++ specCollectCb g r
  | Node.objLit fs => specCollectCbList g fs
  | Node.objField _ v => specCollectCb g v
  | Node.asCast e => specCollectCb g e
  | Node.satCast e => specCollectCb g e
  | Node.paren e => specCollectCb g e
  | Node.exprStmt e => specCollectCb g e
  | Node.many ns => specCollectCbList g ns
  | Node.ident _ => []
  | Node.strLit _ => []
  | Node.numLit _ => []
  | Node.importNamed _ => []

def specCollectCbList (g : Bool) : List Node → List (BddKind × Option ExecMode)
  | [] => []
  | n :: ns => specCollectCb g n ++ specCollectCbList g ns

/-- The arguments of a recognized `given` call under the claim-C5 reading:
the callback argument (the last function-valued one) is visited with the
inside-a-given-callback flag set, every other argument keeps the current
flag. -/
def specCollectCbArgs (g : Bool) : List Node → List (BddKind × Option ExecMode)
  | [] => []
  | a :: as =>
      if isFunctionNode a && !(as.any isFunctionNode) then
        specCollectCb true a ++ specCollectCbList g as
      else specCollectCb g a ++ specCollectCbArgs g as
end

mutual
/-- Ancestor-based reformulation of collection (the amended claim C5): the
visitor carries the kinds of the enclosing recognized calls; a recognized
call is collected iff it is a `given` or some enclosing recognized call
(callback or any other argument position) is a `given`, and its recorded
depth is the number of enclosing recognized calls. -/
def visitSpecAnc (anc : List BddKind) : Node → List CollectedCall
  | Node.call callee args =>
      match parseBddKind callee with
      | some (k, m) =>
          (if k == BddKind.givenK || anc.contains BddKind.givenK then
            [⟨k, m, anc.length⟩] else []) ++
            (visitSpecAnc (k :: anc) callee ++ visitSpecAncList (k :: anc) args)
      | none => visitSpecAnc anc callee ++ visitSpecAncList anc args
  | Node.propAccess o _ => visitSpecAnc anc o
  | Node.arrowB _ _ stmts => visitSpecAncList anc stmts
  | Node.arrowE _ _ body => visitSpecAnc anc body
  | Node.funcB _ _ stmts => visitSpecAncList anc stmts
  | Node.assign l r => visitSpecAnc anc l ++ visitSpecAnc anc r
  | Node.objLit fs => visitSpecAncList anc fs
  | Node.objField _ v => visitSpecAnc anc v
  | Node.asCast e => visitSpecAnc anc e
  | Node.satCast e => visitSpecAnc anc e
  | Node.paren e => visitSpecAnc anc e
  | Node.exprStmt e => visitSpecAnc anc e
  | Node.many ns => visitSpecAncList anc ns
  | Node.ident _ => []
  | Node.strLit _ => []
  | Node.numLit _ => []
  | Node.importNamed _ => []

def visitSpecAncList (anc : List BddKind) : List Node → List CollectedCall
  | [] => []
  | n :: ns => visitSpecAnc anc n ++ visitSpecAncList anc ns
end

mutual
/-- Claim-C6 wording of the reference scan: "transitively references the
identifier $subject anywhere in its subtree — without descending into the
callback bodies of nested recognized given/when/it calls": every child of a
recognized call is searched except its callback argument. -/
def refsSkipCbClaim (name : String) : Node → Bool
  | Node.ident n => n == name
  | Node.strLit _ => false
  | Node.numLit _ => false
  | Node.propAccess o p => refsSkipCbClaim name o || p == name
  | Node.call callee args =>
      match parseBddKind callee with
      | some _ => refsSkipCbClaim name callee || refsSkipCbClaimArgs name args
      | none => refsSkipCbClaim name callee || refsSkipCbClaimList name args
  | Node.arrowB _ ps stmts => ps.any (· == name) || refsSkipCbClaimList name stmts
  | Node.arrowE _ ps body => ps.any (· == name) || refsSkipCbClaim name body
  | Node.funcB _ ps stmts => ps.any (· == name) || refsSkipCbClaimList name stmts
  | Node.assign l r => refsSkipCbClaim name l || refsSkipCbClaim name r
  | Node.objLit fs => refsSkipCbClaimList name fs
  | Node.objField _ v => refsSkipCbClaim name v
  | Node.asCast e => refsSkipCbClaim name e
  | Node.satCast e => refsSkipCbClaim name e
  | Node.paren e => refsSkipCbClaim name e
  | Node.exprStmt e => refsSkipCbClaim name e
  | Node.importNamed _ => false
  | Node.many ns => refsSkipCbClaimList name ns

def refsSkipCbClaimList (name : String) : List Node → Bool
  | [] => false
  | n :: ns => refsSkipCbClaim name n || refsSkipCbClaimList name ns

/-- The arguments of a recognized call under the claim-C6 reading: the
callback argument's body is not descended into (it is skipped), everything
else is searched. -/
def refsSkipCbClaimArgs (name : String) : List Node → Bool
  | [] => false
  | a :: as =>
      if isFunctionNode a && !(as.any isFunctionNode) then
        refsSkipCbClaimList name as
      else refsSkipCbClaim name a || refsSkipCbClaimArgs name as
end

/-- Claim-C6 wording of the per-statement classification. -/
def specClassifyC6 (stmt : Node) : WhenStmtClass :=
  if isInputsModifier stmt then WhenStmtClass.modifier
  else if !isItCall stmt && refsSkipCbClaim "$subject" stmt then WhenStmtClass.perform
  else WhenStmtClass.body

mutual
/-- Pruning reformulation of the source's reference scan (amended claim
C6): replace every recognized BDD call by a node holding only its first
(description) argument, then search naively.  This captures "without
descending into any argument of a nested recognized call other than its
first". -/
def pruneBdd : Node → Node
  | Node.ident n => Node.ident n
  | Node.strLit s => Node.strLit s
  | Node.numLit n => Node.numLit n
  | Node.propAccess o p => Node.propAccess (pruneBdd o) p
  | Node.call callee args =>
      match parseBddKind callee with
      | some _ =>
          Node.many (match args with
                     | a :: _ => [pruneBdd a]
                     | [] => [])
      | none => Node.call (pruneBdd callee) (pruneBddList args)
  | Node.arrowB a ps stmts => Node.arrowB a ps (pruneBddList stmts)
  | Node.arrowE a ps body => Node.arrowE a ps (pruneBdd body)
  | Node.funcB a ps stmts => Node.funcB a ps (pruneBddList stmts)
  | Node.assign l r => Node.assign (pruneBdd l) (pruneBdd r)
  | Node.objLit fs => Node.objLit (pruneBddList fs)
  | Node.objField nm v => Node.objField nm (pruneBdd v)
  | Node.asCast e => Node.asCast (pruneBdd e)
  | Node.satCast e => Node.satCast (pruneBdd e)
  | Node.paren e => Node.paren (pruneBdd e)
  | Node.exprStmt e => Node.exprStmt (pruneBdd e)
  | Node.importNamed ns => Node.importNamed ns
  | Node.many ns => Node.many (pruneBddList ns)

def pruneBddList : List Node → List Node
  | [] => []
  | n :: ns => pruneBdd n :: pruneBddList ns
end

mutual
/-- Naive identifier search over the whole subtree (no skipping). -/
def plainRefs (name : String) : Node → Bool
  | Node.ident n => n == name
  | Node.strLit _ => false
  | Node.numLit _ => false
  | Node.propAccess o p => plainRefs name o || p == name
  | Node.call callee args => plainRefs name callee || plainRefsList name args
  | Node.arrowB _ ps stmts => ps.any (· == name) || plainRefsList name stmts
  | Node.arrowE _ ps body => ps.any (· == name) || plainRefs name body
  | Node.funcB _ ps stmts => ps.any (· == name) || plainRefsList name stmts
  | Node.assign l r => plainRefs name l || plainRefs name r
  | Node.objLit fs => plainRefsList name fs
  | Node.objField _ v => plainRefs name v
  | Node.asCast e => plainRefs name e
  | Node.satCast e => plainRefs name e
  | Node.paren e => plainRefs name e
  | Node.exprStmt e => plainRefs name e
  | Node.importNamed _ => false
  | Node.many ns => plainRefsList name ns

def plainRefsList (name : String) : List Node → Bool
  | [] => false
  | n :: ns => plainRefs name n || plainRefsList name ns
end

/-- Amended-claim classification (claim C6): same precedence, with the
perform scan formalized as the naive search over the pruned statement. -/
def specClassifyAmended (stmt : Node) : WhenStmtClass :=
  if isInputsModifier stmt then WhenStmtClass.modifier
  else if !isItCall stmt && plainRefs "$subject" (pruneBdd stmt) then WhenStmtClass.perform
  else WhenStmtClass.body

/-- Claim-C4 wording, class 1: "files that contain no recognized BDD
calls". -/
def specNoRecognizedBdd (f : SourceFileAst) : Bool :=
  !(f.any containsBdd)

/-- Claim-C4 wording, class 2: "files that already import the internal
registration functions (__given/__when/__it)". -/
def specImportsInternal (f : SourceFileAst) : Bool :=
  f.any fun s =>
    match s with
    | Node.importNamed names =>
        names.contains "__given" || names.contains "__when" || names.contains "__it"
    | _ => false

/-- Claim-C4 wording: the union of the three classes on which
`transformBddSyntax` is claimed to return null. -/
def specC4Null (f : SourceFileAst) : Bool :=
  specNoRecognizedBdd f || specImportsInternal f || importsGivenF f

/-! ## The well-formedness proviso for idempotence (amended claim C9) -/

mutual
/-- Every recognized call in the subtree was actually rewritten by the
transform and moved no BDD call into a configuration literal: `given`/`when`
calls have an inline callback with a block body, `it` calls have an inline
callback, and every statement a rewrite moves into a configuration object
(factory assignments of a `given`, modifier/perform statements of a `when`)
contains no recognized BDD call. -/
def goodNode : Node → Bool
  | Node.call callee args =>
      (match parseBddKind callee with
       | some (k, _) =>
           match k with
           | BddKind.itK => (getCallbackArg args).isSome
           | BddKind.givenK =>
               match getCallbackArg args with
               | some cb =>
                   match getBodyStatements cb with
                   | some stmts =>
                       stmts.all fun s => !isGivenRemovedStmt s || !containsBdd s
                   | none => false
               | none => false
           | BddKind.whenK =>
               match getCallbackArg args with
               | some cb =>
                   match getBodyStatements cb with
                   | some stmts =>
                       stmts.all fun s => !isWhenRemovedStmt s || !containsBdd s
                   | none => false
               | none => false
       | none => true) &&
        (goodNode callee && goodList args)
  | Node.propAccess o _ => goodNode o
  | Node.arrowB _ _ stmts => goodList stmts
  | Node.arrowE _ _ body => goodNode body
  | Node.funcB _ _ stmts => goodList stmts
  | Node.assign l r => goodNode l && goodNode r
  | Node.objLit fs => goodList fs
  | Node.objField _ v => goodNode v
  | Node.asCast e => goodNode e
  | Node.satCast e => goodNode e
  | Node.paren e => goodNode e
  | Node.exprStmt e => goodNode e
  | Node.many ns => goodList ns
  | Node.ident _ => true
  | Node.strLit _ => true
  | Node.numLit _ => true
  | Node.importNamed _ => true

def goodList : List Node → Bool
  | [] => true
  | n :: ns => goodNode n && goodList ns
end

/-! ## Concrete input files -/

/-- A file whose single `given` call has a stored-variable callback (claim
C2 / C10 territory): `given("error case", cb)`. -/
def fileStoredCb : SourceFileAst :=
  [Node.exprStmt (Node.call (Node.ident "given")
    [Node.strLit "error case", Node.ident "cb"])]

/-- Same shape with a different description, used for the idempotence
counterexample: `given("not idempotent", cb)`. -/
def fileStoredCb2 : SourceFileAst :=
  [Node.exprStmt (Node.call (Node.ident "given")
    [Node.strLit "not idempotent", Node.ident "cb"])]

/-- Same shape once more, used for claim C10: `given("scenario", cb)`. -/
def fileStoredCb3 : SourceFileAst :=
  [Node.exprStmt (Node.call (Node.ident "given")
    [Node.strLit "scenario", Node.ident "cb"])]

/-- A file that imports the internal registration function `__given` and
still contains a recognized `given` call (claim C4):
`import { __given } from "..."; given("x", () => {})`. -/
def fileImportsInternal : SourceFileAst :=
  [Node.importNamed ["__given"],
   Node.exprStmt (Node.call (Node.ident "given")
     [Node.strLit "x", Node.arrowB false [] []])]

/-- A file whose `given` call carries a recognized `when` call inside its
first (description) argument, not inside its callback (claim C5):
`given(when("w", () => {}), () => {})`. -/
def fileWhenInDesc : SourceFileAst :=
  [Node.exprStmt (Node.call (Node.ident "given")
    [Node.call (Node.ident "when") [Node.strLit "w", Node.arrowB false [] []],
     Node.arrowB false [] []])]

/-- A `when`-callback statement referencing `$subject` inside a non-first,
non-function argument of a nested recognized `it` call (claim C6):
`bar(it("d", [$subject]))`. -/
def stmtSubjectInItArg : Node :=
  Node.exprStmt (Node.call (Node.ident "bar")
    [Node.call (Node.ident "it")
      [Node.strLit "d", Node.many [Node.ident "$subject"]]])

/-- A well-formed BDD file (used as idempotence witness):
`given("a Foo", () => { $inputs = {}; it("works", () => {}); })`. -/
def fileWellFormed : SourceFileAst :=
  [Node.exprStmt (Node.call (Node.ident "given")
    [Node.strLit "a Foo",
     Node.arrowB false []
       [Node.exprStmt (Node.assign (Node.ident "$inputs") (Node.objLit [])),
        Node.exprStmt (Node.call (Node.ident "it")
          [Node.strLit "works", Node.arrowB false [] []])]])]

/-- The transform's output on `fileWellFormed`:
`import { __given, __it } ...;`
`__given("a Foo", { inputs: () => ({}) }, (__ctx) => { __it("works", ($subject) => {}, __ctx); })`. -/
def fileWellFormedOut : SourceFileAst :=
  [Node.importNamed ["__given", "__it"],
   Node.exprStmt (Node.call (Node.ident "__given")
     [Node.strLit "a Foo",
      Node.objLit [Node.objField "inputs" (Node.arrowE false [] (Node.paren (Node.objLit [])))],
      Node.arrowB false ["__ctx"]
        [Node.exprStmt (Node.call (Node.ident "__it")
          [Node.strLit "works", Node.arrowB false ["$subject"] [],
           Node.ident "__ctx"])]])]

/-- Direct statements of a `given` callback used as the claim-C7 witness:
`$inputs = {}` , `$subject = x` , `noop()`. -/
def stmtsGivenWitness : List Node :=
  [Node.exprStmt (Node.assign (Node.ident "$inputs") (Node.objLit [])),
   Node.exprStmt (Node.assign (Node.ident "$subject") (Node.ident "x")),
   Node.exprStmt (Node.call (Node.ident "noop") [])]

/-! ## Concrete runtime instances (isolation witness) -/

/-- A concrete context on world `Nat` (an allocation counter): the inputs
factory returns 5 and bumps the counter, the modifier multiplies by 10, the
subject factory adds 1 and doubles the counter, the perform adds 2. -/
def cctxWitness : RuntimeContext Nat Nat Nat :=
  { inputs := fun s => (s + 1, 5)
    subject := fun i s => (s * 2, i + 1)
    modifiers := [fun i s => (s + 3, i * 10)]
    performs := [fun x s => (s + 7, x + 2)] }

/-- First test body: records the subject into the world. -/
def ctfA : Nat → Nat → Nat := fun subj s => s + subj

/-- Second test body: another world effect. -/
def ctfB : Nat → Nat → Nat := fun subj s => s * 3 + subj

/-! ## Theorems: runtime executor -/

/-- Running a chain of logging modifiers appends their events in list order
and passes the inputs contents through unchanged. -/
theorem runChain_logModifier (js : List Nat) (i : Nat) (t : RunTrace) :
    runChain (js.map logModifier) i t = (t ++ js.map RunEvent.modifierCalled, i) := by
  induction js generalizing t with
  | nil => simp [runChain]
  | cons j js ih => simp [runChain, logModifier, ih]

/-- Running a chain of logging performs appends their events in list order
and passes the subject contents through unchanged. -/
theorem runChain_logPerform (js : List Nat) (x : Nat) (t : RunTrace) :
    runChain (js.map logPerform) x t = (t ++ js.map RunEvent.performCalled, x) := by
  induction js generalizing t with
  | nil => simp [runChain]
  | cons j js ih => simp [runChain, logPerform, ih]

/-- The registration fold `__given` → `__when`^D produces the expected
context: original factories, and modifier/perform chains listing the `when`
contributions outermost (index 0) to innermost (index D-1). -/
theorem chainedCtx_fields (D : Nat) :
    (chainedCtx D).inputs = logInputs ∧ (chainedCtx D).subject = logSubject ∧
    (chainedCtx D).modifiers = (List.range D).map logModifier ∧
    (chainedCtx D).performs = (List.range D).map logPerform := by
  induction D with
  | zero => exact ⟨rfl, rfl, rfl, rfl⟩
  | succ n ih =>
      have hstep : chainedCtx (n + 1) =
          whenMakeCtx ⟨some (logModifier n), some (logPerform n)⟩ (chainedCtx n) := by
        unfold chainedCtx
        rw [List.range_succ, List.foldl_append]
        rfl
      obtain ⟨h1, h2, h3, h4⟩ := ih
      refine ⟨?_, ?_, ?_, ?_⟩ <;>
        simp [hstep, whenMakeCtx, h1, h2, h3, h4, optToList, List.range_succ]

/-- C1: Every execution of a test case registered by `__it` performs, in
order: one `ctx.inputs()` call; every entry of `ctx.modifiers` in chain
order (outermost first), on the input value produced by step 1; one
`ctx.subject(input)` call; every entry of `ctx.performs` in chain order,
each awaited (sequenced) before the next; then the test body.  For a `given`
with a `when` chain of depth `D` (each `when` contributing one modifier and
one perform) ending in an `it`, the execution therefore invokes exactly `D`
modifiers and `D` performs, each set in outermost-to-innermost order, as the
recorded trace shows. -/
theorem c1_it_execution_order (D : Nat) :
    (chainedCtx D).modifiers = (List.range D).map logModifier ∧
    (chainedCtx D).performs = (List.range D).map logPerform ∧
    (chainedCtx D).modifiers.length = D ∧
    (chainedCtx D).performs.length = D ∧
    itTestBody (chainedCtx D) logTestFn [] =
      ([RunEvent.inputsCalled] ++ (List.range D).map RunEvent.modifierCalled ++
        [RunEvent.subjectCalled] ++ (List.range D).map RunEvent.performCalled ++
        [RunEvent.testBodyCalled], 0, 0) := by
  obtain ⟨h1, h2, h3, h4⟩ := chainedCtx_fields D
  refine ⟨h3, h4, by simp [h3], by simp [h4], ?_⟩
  simp [itTestBody, h1, h2, h3, h4, logInputs, logSubject, logTestFn,
    runChain_logModifier, runChain_logPerform]

/-- The chains of a fold of `whenMakeCtx` extend the starting context's
chains by a (computable) suffix: chains only grow by appending along a
registration path. -/
theorem whenMakeCtx_fold_monotone {σ I S : Type} (cfgs : List (WhenConfig σ I S)) :
    ∀ parent : RuntimeContext σ I S,
      ∃ tm tp,
        (cfgs.foldl (fun c k => whenMakeCtx k c) parent).modifiers =
          parent.modifiers ++ tm ∧
        (cfgs.foldl (fun c k => whenMakeCtx k c) parent).performs =
          parent.performs ++ tp := by
  induction cfgs with
  | nil => exact fun parent => ⟨[], [], by simp, by simp⟩
  | cons k ks ih =>
      intro parent
      obtain ⟨tm, tp, hm, hp⟩ := ih (whenMakeCtx k parent)
      exact ⟨optToList k.modifier ++ tm, optToList k.perform ++ tp,
        by simpa [whenMakeCtx, List.append_assoc] using hm,
        by simpa [whenMakeCtx, List.append_assoc] using hp⟩

/-- C3: The child context built by `__when` has the parent's modifier chain
with the config's modifier (if present) appended at the end, the parent's
perform chain with the config's perform (if present) appended, and the same
inputs and subject factories; since the child is a new record assembled from
reads of the parent (copy-on-extend), the parent's own fields are untouched,
and along every given→when→it registration path the chains only grow by
appending, never shrink or reorder. -/
theorem c3_when_context_append {σ I S : Type} (parent : RuntimeContext σ I S)
    (cfg : WhenConfig σ I S) :
    (whenMakeCtx cfg parent).modifiers = parent.modifiers ++ optToList cfg.modifier ∧
    (whenMakeCtx cfg parent).performs = parent.performs ++ optToList cfg.perform ∧
    (whenMakeCtx cfg parent).inputs = parent.inputs ∧
    (whenMakeCtx cfg parent).subject = parent.subject ∧
    ∀ cfgs : List (WhenConfig σ I S),
      ∃ tm tp,
        (cfgs.foldl (fun c k => whenMakeCtx k c) parent).modifiers =
          parent.modifiers ++ tm ∧
        (cfgs.foldl (fun c k => whenMakeCtx k c) parent).performs =
          parent.performs ++ tp :=
  ⟨rfl, rfl, rfl, rfl, fun cfgs => whenMakeCtx_fold_monotone cfgs parent⟩

/-- If every chain entry's effect on its argument is world-independent, the
contents produced by running the chain do not depend on the starting
world. -/
theorem runChain_snd_world_indep {σ α : Type} (fs : List (α → σ → σ × α))
    (h : ∀ f ∈ fs, argDetermined f) :
    ∀ (a : α) (s s' : σ), (runChain fs a s).2 = (runChain fs a s').2 := by
  induction fs with
  | nil => intro a s s'; rfl
  | cons f fs ih =>
      intro a s s'
      have hf : (f a s).2 = (f a s').2 := h f (by simp) a s s'
      simp only [runChain]
      rw [hf]
      exact ih (fun g hg => h g (by simp [hg])) (f a s').2 (f a s).1 (f a s').1

/-- Under the freshness hypotheses, the input value and subject instance a
test case observes are independent of the world the case starts in. -/
theorem itTestBody_observed_world_indep {σ I S : Type} (ctx : RuntimeContext σ I S)
    (h1 : freshFactory ctx.inputs)
    (h2 : ∀ m ∈ ctx.modifiers, argDetermined m)
    (h3 : argDetermined ctx.subject)
    (h4 : ∀ p ∈ ctx.performs, argDetermined p)
    (tf : S → σ → σ) (s s' : σ) :
    (itTestBody ctx tf s).2 = (itTestBody ctx tf s').2 := by
  simp only [itTestBody]
  have hi : (ctx.inputs s).2 = (ctx.inputs s').2 := h1 s s'
  rw [hi]
  have hm : (runChain ctx.modifiers (ctx.inputs s').2 (ctx.inputs s).1).2 =
      (runChain ctx.modifiers (ctx.inputs s').2 (ctx.inputs s').1).2 :=
    runChain_snd_world_indep ctx.modifiers h2 _ _ _
  rw [hm]
  have hs : (ctx.subject (runChain ctx.modifiers (ctx.inputs s').2 (ctx.inputs s').1).2
        (runChain ctx.modifiers (ctx.inputs s').2 (ctx.inputs s).1).1).2 =
      (ctx.subject (runChain ctx.modifiers (ctx.inputs s').2 (ctx.inputs s').1).2
        (runChain ctx.modifiers (ctx.inputs s').2 (ctx.inputs s').1).1).2 :=
    h3 _ _ _
  rw [hs]
  have hp : (runChain ctx.performs
        (ctx.subject (runChain ctx.modifiers (ctx.inputs s').2 (ctx.inputs s').1).2
          (runChain ctx.modifiers (ctx.inputs s').2 (ctx.inputs s').1).1).2
        (ctx.subject (runChain ctx.modifiers (ctx.inputs s').2 (ctx.inputs s').1).2
          (runChain ctx.modifiers (ctx.inputs s').2 (ctx.inputs s).1).1).1).2 =
      (runChain ctx.performs
        (ctx.subject (runChain ctx.modifiers (ctx.inputs s').2 (ctx.inputs s').1).2
          (runChain ctx.modifiers (ctx.inputs s').2 (ctx.inputs s').1).1).2
        (ctx.subject (runChain ctx.modifiers (ctx.inputs s').2 (ctx.inputs s').1).2
          (runChain ctx.modifiers (ctx.inputs s').2 (ctx.inputs s').1).1).1).2 :=
    runChain_snd_world_indep ctx.performs h4 _ _ _
  rw [hp]

/-- C8: Under the claim's assumptions — the inputs factory allocates a value
sharing no mutable state with previous results (its returned contents are
world-independent), and each modifier's, the subject factory's and each
perform's effect on its argument is determined by that argument alone — the
input value and subject instance observed by a test case are unchanged by
running any other test case first: mutation performed inside one case's
body, modifiers or performs (an arbitrary world effect) never affects what
another case under the same context observes, because each execution repeats
input creation, modification, subject creation and performs from scratch. -/
theorem c8_case_isolation {σ I S : Type} (ctx : RuntimeContext σ I S)
    (h1 : freshFactory ctx.inputs)
    (h2 : ∀ m ∈ ctx.modifiers, argDetermined m)
    (h3 : argDetermined ctx.subject)
    (h4 : ∀ p ∈ ctx.performs, argDetermined p) :
    ∀ (tfA tfB : S → σ → σ) (s : σ),
      (itTestBody ctx tfB (itTestBody ctx tfA s).1).2 = (itTestBody ctx tfB s).2 :=
  fun tfA tfB s =>
    itTestBody_observed_world_indep ctx h1 h2 h3 h4 tfB (itTestBody ctx tfA s).1 s

/-- Witness for C8 at a concrete context: the hypotheses hold for
`cctxWitness` and the isolation conclusion holds at world 3 with the two
concrete test bodies. -/
theorem c8_case_isolation_witness :
    freshFactory cctxWitness.inputs ∧
    argDetermined cctxWitness.subject ∧
    (itTestBody cctxWitness ctfB (itTestBody cctxWitness ctfA 3).1).2 =
      (itTestBody cctxWitness ctfB 3).2 :=
  ⟨fun _ _ => rfl, fun _ _ _ => rfl,
    c8_case_isolation cctxWitness (fun _ _ => rfl)
      (by intro m hm; simp [cctxWitness] at hm; subst hm; intro a s s'; rfl)
      (fun _ _ _ => rfl)
      (by intro p hp; simp [cctxWitness] at hp; subst hp; intro a s s'; rfl)
      ctfA ctfB 3⟩

/-! ## Theorems: transform -/

mutual
/-- No recognized call anywhere implies no call satisfying any kind
predicate. -/
theorem containsBddSat_of_no_bdd (n : Node) :
    ∀ q : BddKind → Bool, containsBdd n = false → containsBddSat q n = false := by
  cases n with
  | ident nm => exact fun q h => rfl
  | strLit s => exact fun q h => rfl
  | numLit v => exact fun q h => rfl
  | importNamed ns => exact fun q h => rfl
  | propAccess o p =>
      exact fun q h =>
        containsBddSat_of_no_bdd o q (by simpa [containsBdd, containsBddSat] using h)
  | call callee args =>
      intro q h
      simp only [containsBdd, containsBddSat, Bool.or_eq_false_iff] at h
      obtain ⟨hk, hc, ha⟩ := h
      cases hp : parseBddKind callee with
      | none =>
          simp [containsBddSat, hp, containsBddSat_of_no_bdd callee q hc,
            containsBddSatList_of_no_bdd args q ha]
      | some kv =>
          rw [hp] at hk
          simp at hk
  | arrowB a ps stmts =>
      exact fun q h =>
        containsBddSatList_of_no_bdd stmts q (by simpa [containsBdd, containsBddSat] using h)
  | arrowE a ps body =>
      exact fun q h =>
        containsBddSat_of_no_bdd body q (by simpa [containsBdd, containsBddSat] using h)
  | funcB a ps stmts =>
      exact fun q h =>
        containsBddSatList_of_no_bdd stmts q (by simpa [containsBdd, containsBddSat] using h)
  | assign l r =>
      intro q h
      simp only [containsBdd, containsBddSat, Bool.or_eq_false_iff] at h
      simp only [containsBddSat, Bool.or_eq_false_iff]
      exact ⟨containsBddSat_of_no_bdd l q h.1, containsBddSat_of_no_bdd r q h.2⟩
  | objLit fs =>
      exact fun q h =>
        containsBddSatList_of_no_bdd fs q (by simpa [containsBdd, containsBddSat] using h)
  | objField nm v =>
      exact fun q h =>
        containsBddSat_of_no_bdd v q (by simpa [containsBdd, containsBddSat] using h)
  | asCast e =>
      exact fun q h =>
        containsBddSat_of_no_bdd e q (by simpa [containsBdd, containsBddSat] using h)
  | satCast e =>
      exact fun q h =>
        containsBddSat_of_no_bdd e q (by simpa [containsBdd, containsBddSat] using h)
  | paren e =>
      exact fun q h =>
        containsBddSat_of_no_bdd e q (by simpa [containsBdd, containsBddSat] using h)
  | exprStmt e =>
      exact fun q h =>
        containsBddSat_of_no_bdd e q (by simpa [containsBdd, containsBddSat] using h)
  | many ns =>
      exact fun q h =>
        containsBddSatList_of_no_bdd ns q (by simpa [containsBdd, containsBddSat] using h)

/-- List version of `containsBddSat_of_no_bdd`. -/
theorem containsBddSatList_of_no_bdd (l : List Node) :
    ∀ q : BddKind → Bool, containsBddSatList (fun _ => true) l = false →
      containsBddSatList q l = false := by
  cases l with
  | nil => exact fun q h => rfl
  | cons n ns =>
      intro q h
      simp only [containsBddSatList, Bool.or_eq_false_iff] at h ⊢
      exact ⟨containsBddSat_of_no_bdd n q h.1, containsBddSatList_of_no_bdd ns q h.2⟩
end

mutual
/-- Outside any `given` (`insideGiven = false`), a subtree containing no
recognized `given` call contributes nothing to the collection. -/
theorem visitNode_nil_of_no_given (n : Node) :
    ∀ d : Nat, containsGiven n = false → visitNode d false n = [] := by
  cases n with
  | ident nm => exact fun d h => rfl
  | strLit s => exact fun d h => rfl
  | numLit v => exact fun d h => rfl
  | importNamed ns => exact fun d h => rfl
  | propAccess o p =>
      exact fun d h =>
        visitNode_nil_of_no_given o d (by simpa [containsGiven, containsBddSat] using h)
  | call callee args =>
      intro d h
      simp only [containsGiven, containsBddSat, Bool.or_eq_false_iff] at h
      obtain ⟨hk, hc, ha⟩ := h
      cases hp : parseBddKind callee with
      | none =>
          simp [visitNode, hp, visitNode_nil_of_no_given callee d hc,
            visitList_nil_of_no_given args d ha]
      | some kv =>
          rw [hp] at hk
          obtain ⟨k, m⟩ := kv
          simp only at hk
          simp [visitNode, hp, hk,
            visitNode_nil_of_no_given callee (d + 1) hc,
            visitList_nil_of_no_given args (d + 1) ha]
  | arrowB a ps stmts =>
      exact fun d h =>
        visitList_nil_of_no_given stmts d (by simpa [containsGiven, containsBddSat] using h)
  | arrowE a ps body =>
      exact fun d h =>
        visitNode_nil_of_no_given body d (by simpa [containsGiven, containsBddSat] using h)
  | funcB a ps stmts =>
      exact fun d h =>
        visitList_nil_of_no_given stmts d (by simpa [containsGiven, containsBddSat] using h)
  | assign l r =>
      intro d h
      simp only [containsGiven, containsBddSat, Bool.or_eq_false_iff] at h
      simp [visitNode, visitNode_nil_of_no_given l d h.1, visitNode_nil_of_no_given r d h.2]
  | objLit fs =>
      exact fun d h =>
        visitList_nil_of_no_given fs d (by simpa [containsGiven, containsBddSat] using h)
  | objField nm v =>
      exact fun d h =>
        visitNode_nil_of_no_given v d (by simpa [containsGiven, containsBddSat] using h)
  | asCast e =>
      exact fun d h =>
        visitNode_nil_of_no_given e d (by simpa [containsGiven, containsBddSat] using h)
  | satCast e =>
      exact fun d h =>
        visitNode_nil_of_no_given e d (by simpa [containsGiven, containsBddSat] using h)
  | paren e =>
      exact fun d h =>
        visitNode_nil_of_no_given e d (by simpa [containsGiven, containsBddSat] using h)
  | exprStmt e =>
      exact fun d h =>
        visitNode_nil_of_no_given e d (by simpa [containsGiven, containsBddSat] using h)
  | many ns =>
      exact fun d h =>
        visitList_nil_of_no_given ns d (by simpa [containsGiven, containsBddSat] using h)

/-- List version of `visitNode_nil_of_no_given`. -/
theorem visitList_nil_of_no_given (l : List Node) :
    ∀ d : Nat, containsBddSatList (fun k => k == BddKind.givenK) l = false →
      visitList d false l = [] := by
  cases l with
  | nil => exact fun d h => rfl
  | cons n ns =>
      intro d h
      simp only [containsBddSatList, Bool.or_eq_false_iff] at h
      have h1 : containsGiven n = false := h.1
      simp [visitList, visitNode_nil_of_no_given n d h1,
        visitList_nil_of_no_given ns d h.2]
end

mutual
/-- A subtree containing a recognized `given` call always contributes at
least one entry to the collection, whatever the depth and flag. -/
theorem visitNode_ne_nil_of_given (n : Node) :
    ∀ (d : Nat) (g : Bool), containsGiven n = true → visitNode d g n ≠ [] := by
  cases n with
  | ident nm => intro d g h; simp [containsGiven, containsBddSat] at h
  | strLit s => intro d g h; simp [containsGiven, containsBddSat] at h
  | numLit v => intro d g h; simp [containsGiven, containsBddSat] at h
  | importNamed ns => intro d g h; simp [containsGiven, containsBddSat] at h
  | propAccess o p =>
      exact fun d g h =>
        visitNode_ne_nil_of_given o d g (by simpa [containsGiven, containsBddSat] using h)
  | call callee args =>
      intro d g h
      simp only [containsGiven, containsBddSat, Bool.or_eq_true] at h
      cases hp : parseBddKind callee with
      | none =>
          rw [hp] at h
          simp only [Bool.false_eq_true, false_or] at h
          simp only [visitNode, hp]
          intro hcon
          rw [List.append_eq_nil] at hcon
          rcases h with h | h
          · exact visitNode_ne_nil_of_given callee d g h hcon.1
          · exact visitList_ne_nil_of_given args d g h hcon.2
      | some kv =>
          obtain ⟨k, m⟩ := kv
          rw [hp] at h
          simp only at h
          rcases h with h | h | h
          · simp [visitNode, hp, h]
          · simp only [visitNode, hp]
            intro hcon
            rw [List.append_eq_nil] at hcon
            obtain ⟨h1, h23⟩ := hcon
            rw [List.append_eq_nil] at h23
            exact visitNode_ne_nil_of_given callee (d + 1) (g || (k == BddKind.givenK)) h h23.1
          · simp only [visitNode, hp]
            intro hcon
            rw [List.append_eq_nil] at hcon
            obtain ⟨h1, h23⟩ := hcon
            rw [List.append_eq_nil] at h23
            exact visitList_ne_nil_of_given args (d + 1) (g || (k == BddKind.givenK)) h h23.2
  | arrowB a ps stmts =>
      exact fun d g h =>
        visitList_ne_nil_of_given stmts d g (by simpa [containsGiven, containsBddSat] using h)
  | arrowE a ps body =>
      exact fun d g h =>
        visitNode_ne_nil_of_given body d g (by simpa [containsGiven, containsBddSat] using h)
  | funcB a ps stmts =>
      exact fun d g h =>
        visitList_ne_nil_of_given stmts d g (by simpa [containsGiven, containsBddSat] using h)
  | assign l r =>
      intro d g h
      simp only [containsGiven, containsBddSat, Bool.or_eq_true] at h
      simp only [visitNode]
      intro hcon
      rw [List.append_eq_nil] at hcon
      rcases h with h | h
      · exact visitNode_ne_nil_of_given l d g h hcon.1
      · exact visitNode_ne_nil_of_given r d g h hcon.2
  | objLit fs =>
      exact fun d g h =>
        visitList_ne_nil_of_given fs d g (by simpa [containsGiven, containsBddSat] using h)
  | objField nm v =>
      exact fun d g h =>
        visitNode_ne_nil_of_given v d g (by simpa [containsGiven, containsBddSat] using h)
  | asCast e =>
      exact fun d g h =>
        visitNode_ne_nil_of_given e d g (by simpa [containsGiven, containsBddSat] using h)
  | satCast e =>
      exact fun d g h =>
        visitNode_ne_nil_of_given e d g (by simpa [containsGiven, containsBddSat] using h)
  | paren e =>
      exact fun d g h =>
        visitNode_ne_nil_of_given e d g (by simpa [containsGiven, containsBddSat] using h)
  | exprStmt e =>
      exact fun d g h =>
        visitNode_ne_nil_of_given e d g (by simpa [containsGiven, containsBddSat] using h)
  | many ns =>
      exact fun d g h =>
        visitList_ne_nil_of_given ns d g (by simpa [containsGiven, containsBddSat] using h)

/-- List version of `visitNode_ne_nil_of_given`. -/
theorem visitList_ne_nil_of_given (l : List Node) :
    ∀ (d : Nat) (g : Bool), containsBddSatList (fun k => k == BddKind.givenK) l = true →
      visitList d g l ≠ [] := by
  cases l with
  | nil => intro d g h; simp [containsBddSatList] at h
  | cons n ns =>
      intro d g h
      simp only [containsBddSatList, Bool.or_eq_true] at h
      simp only [visitList]
      intro hcon
      rw [List.append_eq_nil] at hcon
      rcases h with h | h
      · exact visitNode_ne_nil_of_given n d g h hcon.1
      · exact visitList_ne_nil_of_given ns d g h hcon.2
end

/-- Lemma: `containsBddSatList` is `List.any` of the node-level check. -/
theorem containsBddSatList_eq_any (q : BddKind → Bool) (l : List Node) :
    containsBddSatList q l = l.any (containsBddSat q) := by
  induction l with
  | nil => rfl
  | cons n ns ih => simp [containsBddSatList, ih]

/-- The collection is empty exactly when the file holds no recognized
`given` call: `given` is always collected, and `when`/`it` are only
collected inside a `given`. -/
theorem collectFile_nil_iff (f : SourceFileAst) :
    (collectFile f).isEmpty = true ↔ f.any containsGiven = false := by
  rw [List.isEmpty_iff]
  constructor
  · intro h
    cases hb : f.any containsGiven with
    | false => rfl
    | true =>
        have hl : containsBddSatList (fun k => k == BddKind.givenK) f = true := by
          rw [containsBddSatList_eq_any]
          exact hb
        exact absurd h (visitList_ne_nil_of_given f 0 false hl)
  · intro h
    apply visitList_nil_of_no_given
    rw [containsBddSatList_eq_any]
    exact h

/-- C4 (amended): `transformBddSyntax` returns unmodified (null) exactly on
the files that import `given` as a named import, or that contain no
recognized `given` call (in particular all files with no recognized BDD call
at all, and all outputs of the transform, whose callees `__given` are not
recognized).  Merely importing the internal registration functions does not
make the transform a no-op, and files whose only recognized calls are
`when`/`it` outside any `given` are also left unmodified. -/
theorem c4_transform_null_iff (f : SourceFileAst) :
    transformModel f = none ↔
      (importsGivenF f = true ∨ f.any containsGiven = false) := by
  unfold transformModel
  cases hig : importsGivenF f with
  | true => simp [hig]
  | false =>
      cases he : (collectFile f).isEmpty with
      | true =>
          simp only [hig, Bool.false_eq_true, if_false, he, if_true]
          exact iff_of_true trivial (Or.inr ((collectFile_nil_iff f).mp he))
      | false =>
          simp only [hig, Bool.false_eq_true, if_false, he, Bool.false_eq_true, if_false]
          constructor
          · intro hcon; exact Option.noConfusion hcon
          · intro hor
            rcases hor with hor | hor
            · exact absurd hor (by simp)
            · rw [(collectFile_nil_iff f).mpr hor] at he
              exact absurd he (by simp)

/-- C4 (counterexample): the file
`import { __given } from "..."; given("x", () => {})` imports the internal
registration function `__given`, so the claim places it among the files on
which the transform returns unmodified; the transform nevertheless rewrites
it (the recognized `given` call is still collected), returning a non-null
result. -/
theorem c4_counterexample :
    specC4Null fileImportsInternal = true ∧
      transformModel fileImportsInternal ≠ none :=
  ⟨rfl, Option.ne_none_iff_isSome.mpr rfl⟩

/-- C2 (counterexample): on a file whose single recognized `given` call has
a stored-variable callback (`given("error case", cb)`), the transform does
not raise any diagnostic — `transformBddSyntax` has no failure channel at
all (src/transform.ts contains no `throw`) — and full output *is* produced:
the synthetic import line followed by the original source, the offending
call left unrewritten.  This contradicts "the transform raises a fatal
diagnostic ... thrown before any output is produced, and no partial output
is ever emitted". -/
theorem c2_counterexample :
    transformModel fileStoredCb =
      some (Node.importNamed ["__given"] :: fileStoredCb) ∧
      transformModel fileStoredCb ≠ none :=
  ⟨rfl, Option.ne_none_iff_isSome.mpr rfl⟩

/-- C2 (amended): a recognized `given`/`when`/`it` call whose arguments hold
no inline anonymous function (so `getCallbackArg` returns null) is silently
skipped: no diagnostic is raised, the callee and arguments are left exactly
as they were (children still carry their own edits), and the rest of the
file — including the prepended import line — is still emitted. -/
theorem c2_noninline_callback_skipped (g : Bool) (callee : Node) (args : List Node)
    (k : BddKind) (m : Option ExecMode)
    (hk : parseBddKind callee = some (k, m))
    (hcb : getCallbackArg args = none) :
    rwNode g (Node.call callee args) =
      Node.call callee (rwList (g || k == BddKind.givenK) args) := by
  simp [rwNode, hk, shouldRewrite, hcb]

/-- Witness for C2 (amended) at a concrete call: `given("error case", cb)`
with a stored-variable callback. -/
theorem c2_noninline_callback_skipped_witness :
    parseBddKind (Node.ident "given") = some (BddKind.givenK, none) ∧
    getCallbackArg [Node.strLit "error case", Node.ident "cb"] = none ∧
    rwNode false (Node.call (Node.ident "given")
        [Node.strLit "error case", Node.ident "cb"]) =
      Node.call (Node.ident "given")
        (rwList (false || BddKind.givenK == BddKind.givenK)
          [Node.strLit "error case", Node.ident "cb"]) :=
  ⟨rfl, rfl,
    c2_noninline_callback_skipped false (Node.ident "given")
      [Node.strLit "error case", Node.ident "cb"] BddKind.givenK none rfl rfl⟩

/-- C10: on the file `given("scenario", cb)` — exactly one recognized
`given` call whose callback argument is a stored variable reference, not an
inline function — the transform returns a non-null result equal to the
original source with only the synthetic import line prepended: the call
keeps its callee, statements and arguments, yet `__given` is still included
in the prepended import statement. -/
theorem c10_noninline_import_only :
    transformModel fileStoredCb3 =
      some (Node.importNamed ["__given"] :: fileStoredCb3) := rfl

mutual
/-- The ancestors-based collector coincides with the source's visitor when
the depth is the number of enclosing recognized calls and the flag records a
`given` among them. -/
theorem visitSpecAnc_eq (n : Node) :
    ∀ anc : List BddKind,
      visitSpecAnc anc n = visitNode anc.length (anc.contains BddKind.givenK) n := by
  cases n with
  | ident nm => exact fun anc => rfl
  | strLit s => exact fun anc => rfl
  | numLit v => exact fun anc => rfl
  | importNamed ns => exact fun anc => rfl
  | propAccess o p => exact fun anc => visitSpecAnc_eq o anc
  | call callee args =>
      intro anc
      cases hp : parseBddKind callee with
      | none =>
          simp [visitSpecAnc, visitNode, hp, visitSpecAnc_eq callee anc,
            visitSpecAncList_eq args anc]
      | some kv =>
          obtain ⟨k, m⟩ := kv
          have hb : (k == BddKind.givenK) = decide (BddKind.givenK = k) := by
            cases k <;> rfl
          have hc : (k :: anc).contains BddKind.givenK =
              (anc.contains BddKind.givenK || (k == BddKind.givenK)) := by
            simp [List.contains_cons, Bool.or_comm, hb]
          simp only [visitSpecAnc, visitNode, hp, visitSpecAnc_eq callee (k :: anc),
            visitSpecAncList_eq args (k :: anc), List.length_cons, hc,
            Bool.or_comm]
  | arrowB a ps stmts => exact fun anc => visitSpecAncList_eq stmts anc
  | arrowE a ps body => exact fun anc => visitSpecAnc_eq body anc
  | funcB a ps stmts => exact fun anc => visitSpecAncList_eq stmts anc
  | assign l r =>
      intro anc
      simp [visitSpecAnc, visitNode, visitSpecAnc_eq l anc, visitSpecAnc_eq r anc]
  | objLit fs => exact fun anc => visitSpecAncList_eq fs anc
  | objField nm v => exact fun anc => visitSpecAnc_eq v anc
  | asCast e => exact fun anc => visitSpecAnc_eq e anc
  | satCast e => exact fun anc => visitSpecAnc_eq e anc
  | paren e => exact fun anc => visitSpecAnc_eq e anc
  | exprStmt e => exact fun anc => visitSpecAnc_eq e anc
  | many ns => exact fun anc => visitSpecAncList_eq ns anc

/-- List version of `visitSpecAnc_eq`. -/
theorem visitSpecAncList_eq (l : List Node) :
    ∀ anc : List BddKind,
      visitSpecAncList anc l = visitList anc.length (anc.contains BddKind.givenK) l := by
  cases l with
  | nil => exact fun anc => rfl
  | cons n ns =>
      intro anc
      simp [visitSpecAncList, visitList, visitSpecAnc_eq n anc, visitSpecAncList_eq ns anc]
end

/-- C5 (counterexample): in the file `given(when("w", () => {}), () => {})`
the `when` call sits in the `given`'s first (description) argument, not
inside its callback.  The claim-side collector (collection iff lexically
nested inside a recognized `given` call's *callback*) does not collect it,
but `collectBddCalls` does — `insideGiven` is set for every child of a
recognized `given` call — so the claimed "if and only if" fails. -/
theorem c5_counterexample :
    (collectFile fileWhenInDesc).map (fun c => (c.kind, c.mode)) =
      [(BddKind.givenK, none), (BddKind.whenK, none)] ∧
    specCollectCbList false fileWhenInDesc = [(BddKind.givenK, none)] ∧
    (collectFile fileWhenInDesc).map (fun c => (c.kind, c.mode)) ≠
      specCollectCbList false fileWhenInDesc := by
  refine ⟨rfl, rfl, ?_⟩
  intro h
  exact absurd (congrArg List.length h) (by decide)

/-- C5 (amended): a `when`/`it` call is collected (and thus rewritten) if
and only if it is lexically nested — at any depth, through arbitrary
control-flow constructs — inside a recognized `given` *call* (its callback
or any other argument position), while every `given` call is collected
regardless of nesting; the recorded depth is the number of enclosing
recognized calls.  Formally, `collectBddCalls` coincides with the
ancestors-based collector that collects a recognized call iff it is a
`given` or some enclosing recognized call is a `given`. -/
theorem c5_collected_iff_inside_given (f : SourceFileAst) :
    collectFile f = visitSpecAncList [] f :=
  (visitSpecAncList_eq f []).symm

mutual
/-- The source's reference scan equals the naive scan over the pruned tree
in which every recognized BDD call is replaced by just its first
(description) argument. -/
theorem refsId_eq_plainRefs_prune (n : Node) :
    ∀ name : String, refsId name n = plainRefs name (pruneBdd n) := by
  cases n with
  | ident nm => exact fun name => rfl
  | strLit s => exact fun name => rfl
  | numLit v => exact fun name => rfl
  | importNamed ns => exact fun name => rfl
  | propAccess o p =>
      intro name
      simp [refsId, pruneBdd, plainRefs, refsId_eq_plainRefs_prune o name]
  | call callee args =>
      intro name
      cases hp : parseBddKind callee with
      | none =>
          cases args with
          | nil =>
              simp [refsId, pruneBdd, plainRefs, hp, refsId_eq_plainRefs_prune callee name,
                refsIdList, pruneBddList, plainRefsList]
          | cons a as =>
              simp [refsId, pruneBdd, plainRefs, hp, refsId_eq_plainRefs_prune callee name,
                refsIdList_eq_plainRefs_prune (a :: as) name]
      | some kv =>
          cases args with
          | nil => simp [refsId, pruneBdd, plainRefs, hp, plainRefsList]
          | cons a as =>
              simp [refsId, pruneBdd, plainRefs, hp, plainRefsList,
                refsId_eq_plainRefs_prune a name]
  | arrowB a ps stmts =>
      intro name
      simp [refsId, pruneBdd, plainRefs, refsIdList_eq_plainRefs_prune stmts name]
  | arrowE a ps body =>
      intro name
      simp [refsId, pruneBdd, plainRefs, refsId_eq_plainRefs_prune body name]
  | funcB a ps stmts =>
      intro name
      simp [refsId, pruneBdd, plainRefs, refsIdList_eq_plainRefs_prune stmts name]
  | assign l r =>
      intro name
      simp [refsId, pruneBdd, plainRefs, refsId_eq_plainRefs_prune l name,
        refsId_eq_plainRefs_prune r name]
  | objLit fs =>
      intro name
      simp [refsId, pruneBdd, plainRefs, refsIdList_eq_plainRefs_prune fs name]
  | objField nm v =>
      intro name
      simp [refsId, pruneBdd, plainRefs, refsId_eq_plainRefs_prune v name]
  | asCast e =>
      intro name
      simp [refsId, pruneBdd, plainRefs, refsId_eq_plainRefs_prune e name]
  | satCast e =>
      intro name
      simp [refsId, pruneBdd, plainRefs, refsId_eq_plainRefs_prune e name]
  | paren e =>
      intro name
      simp [refsId, pruneBdd, plainRefs, refsId_eq_plainRefs_prune e name]
  | exprStmt e =>
      intro name
      simp [refsId, pruneBdd, plainRefs, refsId_eq_plainRefs_prune e name]
  | many ns =>
      intro name
      simp [refsId, pruneBdd, plainRefs, refsIdList_eq_plainRefs_prune ns name]

/-- List version of `refsId_eq_plainRefs_prune`. -/
theorem refsIdList_eq_plainRefs_prune (l : List Node) :
    ∀ name : String, refsIdList name l = plainRefsList name (pruneBddList l) := by
  cases l with
  | nil => exact fun name => rfl
  | cons n ns =>
      intro name
      simp [refsIdList, pruneBddList, plainRefsList, refsId_eq_plainRefs_prune n name,
        refsIdList_eq_plainRefs_prune ns name]
end

/-- C6 (counterexample): the statement `bar(it("d", [$subject]))` references
`$subject` inside a non-first argument of a nested recognized `it` call that
is *not* a callback body, so the claim's rule ("without descending into the
callback bodies of nested recognized calls") classifies it as a perform;
the source's scan, however, checks only the first (description) argument of
a recognized call and skips every other argument, so `transformWhen`
classifies the statement as pass-through body. -/
theorem c6_counterexample :
    classifyStmt stmtSubjectInItArg = WhenStmtClass.body ∧
    specClassifyC6 stmtSubjectInItArg = WhenStmtClass.perform ∧
    classifyStmt stmtSubjectInItArg ≠ specClassifyC6 stmtSubjectInItArg :=
  ⟨rfl, rfl, by decide⟩

/-- C6 (amended): a direct statement of a `when` callback is classified
purely by its own shape with precedence modifier → perform → body, where an
assignment whose left side is a property access whose object is directly
`$inputs` is a modifier, and a statement that is not a recognized `it` call
and references `$subject` in the tree obtained by replacing every nested
recognized call with just its first (description) argument — i.e. without
descending into *any* non-description argument of a nested recognized call,
callback or not — is a perform.  Modifier statements concatenate in source
order into the single generated modifier body, perform statements into the
single generated perform body, and the remaining statements (in source
order) are the pass-through body. -/
theorem c6_when_statement_classification (stmts : List Node) :
    (∀ s : Node, classifyStmt s = specClassifyAmended s) ∧
    classifyWhenStmts stmts =
      (stmts.filter (fun s => isInputsModifier s),
       stmts.filter (fun s => !isInputsModifier s && isPerformStatement s),
       stmts.filter (fun s => !isInputsModifier s && !isPerformStatement s)) ∧
    mkConfigWhen stmts =
      Node.objLit
        ((if (stmts.filter (fun s => isInputsModifier s)).isEmpty then []
          else [Node.objField "modifier" (Node.arrowB false ["$inputs"]
            (stmts.filter (fun s => isInputsModifier s)))]) ++
         (if (stmts.filter (fun s => !isInputsModifier s && isPerformStatement s)).isEmpty
          then []
          else [Node.objField "perform" (Node.arrowB false ["$subject"]
            (stmts.filter (fun s => !isInputsModifier s && isPerformStatement s)))])) := by
  have hcls : ∀ s : Node, classifyStmt s = specClassifyAmended s := by
    intro s
    simp [classifyStmt, specClassifyAmended, isPerformStatement,
      refsId_eq_plainRefs_prune s "$subject"]
  have hbuckets : classifyWhenStmts stmts =
      (stmts.filter (fun s => isInputsModifier s),
       stmts.filter (fun s => !isInputsModifier s && isPerformStatement s),
       stmts.filter (fun s => !isInputsModifier s && !isPerformStatement s)) := by
    induction stmts with
    | nil => rfl
    | cons s rest ih =>
        by_cases h1 : isInputsModifier s
        · simp [classifyWhenStmts, List.filter_cons, h1, ih]
        · by_cases h2 : isPerformStatement s
          · simp [classifyWhenStmts, List.filter_cons, h1, h2, ih]
          · simp [classifyWhenStmts, List.filter_cons, h1, h2, ih]
  refine ⟨hcls, hbuckets, ?_⟩
  rw [mkConfigWhen, hbuckets]

/-- The removal list accumulated by the `given` scan is exactly the
factory-assignment statements, in source order. -/
theorem givenScan_foldl_removed (stmts : List Node) :
    ∀ acc : GivenScan,
      (stmts.foldl givenScanStep acc).removed =
        acc.removed ++ stmts.filter (fun s => isGivenRemovedStmt s) := by
  induction stmts with
  | nil => intro acc; simp
  | cons s rest ih =>
      intro acc
      by_cases h1 : isInputsAssignment s
      · simp [givenScanStep, h1, List.filter_cons, isGivenRemovedStmt, ih]
      · by_cases h2 : isSubjectAssignment s
        · simp [givenScanStep, h1, h2, List.filter_cons, isGivenRemovedStmt, ih]
        · simp [givenScanStep, h1, h2, List.filter_cons, isGivenRemovedStmt, ih]

/-- With no `$inputs` assignment among the statements, the scan's inputs
slot is untouched. -/
theorem givenScan_foldl_inputsE_none (stmts : List Node)
    (h : stmts.filter (fun s => isInputsAssignment s) = []) :
    ∀ acc : GivenScan, (stmts.foldl givenScanStep acc).inputsE = acc.inputsE := by
  induction stmts with
  | nil => intro acc; rfl
  | cons s rest ih =>
      intro acc
      rw [List.filter_cons] at h
      by_cases h1 : isInputsAssignment s
      · simp [h1] at h
      · simp only [h1, Bool.false_eq_true, if_false] at h
        by_cases h2 : isSubjectAssignment s
        · simp [givenScanStep, h1, h2, ih h]
        · simp [givenScanStep, h1, h2, ih h]

/-- With no `$subject` assignment among the statements, the scan's subject
slot is untouched. -/
theorem givenScan_foldl_subjectE_none (stmts : List Node)
    (h : stmts.filter (fun s => isSubjectAssignment s) = []) :
    ∀ acc : GivenScan, (stmts.foldl givenScanStep acc).subjectE = acc.subjectE := by
  induction stmts with
  | nil => intro acc; rfl
  | cons s rest ih =>
      intro acc
      rw [List.filter_cons] at h
      by_cases h2 : isSubjectAssignment s
      · simp [h2] at h
      · simp only [h2, Bool.false_eq_true, if_false] at h
        by_cases h1 : isInputsAssignment s
        · simp [givenScanStep, h1, h2, ih h]
        · simp [givenScanStep, h1, h2, ih h]

/-- With exactly one `$inputs` assignment among the statements, the scan
extracts its right-hand side (parenthesized when object-literal-shaped). -/
theorem givenScan_foldl_inputsE (stmts : List Node) (x : Node)
    (h : stmts.filter (fun s => isInputsAssignment s) = [x]) :
    ∀ acc : GivenScan,
      (stmts.foldl givenScanStep acc).inputsE = some (wrapExpr (rhsOf x)) := by
  induction stmts with
  | nil => simp at h
  | cons s rest ih =>
      intro acc
      rw [List.filter_cons] at h
      by_cases h1 : isInputsAssignment s
      · simp only [h1, if_true] at h
        obtain ⟨hx, hrest⟩ := List.cons_eq_cons.mp h
        subst hx
        simp only [List.foldl_cons]
        rw [show givenScanStep acc s =
          { acc with inputsE := some (wrapExpr (rhsOf s)), removed := acc.removed ++ [s] }
          from by simp [givenScanStep, h1]]
        exact givenScan_foldl_inputsE_none rest hrest _
      · simp only [h1, Bool.false_eq_true, if_false] at h
        simp only [List.foldl_cons]
        by_cases h2 : isSubjectAssignment s
        · rw [show givenScanStep acc s =
            { acc with subjectE := some (wrapExpr (rhsOf s)), removed := acc.removed ++ [s] }
            from by simp [givenScanStep, h1, h2]]
          exact ih h _
        · rw [show givenScanStep acc s = acc from by simp [givenScanStep, h1, h2]]
          exact ih h _

/-- With exactly one `$subject` assignment among the statements, the scan
extracts its right-hand side (parenthesized when object-literal-shaped). -/
theorem givenScan_foldl_subjectE (stmts : List Node) (x : Node)
    (h : stmts.filter (fun s => isSubjectAssignment s) = [x]) :
    ∀ acc : GivenScan,
      (stmts.foldl givenScanStep acc).subjectE = some (wrapExpr (rhsOf x)) := by
  induction stmts with
  | nil => simp at h
  | cons s rest ih =>
      intro acc
      rw [List.filter_cons] at h
      by_cases h2 : isSubjectAssignment s
      · simp only [h2, if_true] at h
        obtain ⟨hx, hrest⟩ := List.cons_eq_cons.mp h
        subst hx
        simp only [List.foldl_cons]
        have h1 : isInputsAssignment s = false := by
          unfold isInputsAssignment
          split
          · exact Bool.noConfusion h2
          · rfl
        rw [show givenScanStep acc s =
          { acc with subjectE := some (wrapExpr (rhsOf s)), removed := acc.removed ++ [s] }
          from by simp [givenScanStep, h1, h2]]
        exact givenScan_foldl_subjectE_none rest hrest _
      · simp only [h2, Bool.false_eq_true, if_false] at h
        simp only [List.foldl_cons]
        by_cases h1 : isInputsAssignment s
        · rw [show givenScanStep acc s =
            { acc with inputsE := some (wrapExpr (rhsOf s)), removed := acc.removed ++ [s] }
            from by simp [givenScanStep, h1]]
          exact ih h _
        · rw [show givenScanStep acc s = acc from by simp [givenScanStep, h1, h2]]
          exact ih h _

/-- The `given`-callback body rewrite drops exactly the factory-assignment
statements and applies the nested edits to the rest. -/
theorem rwStmtsGiven_eq_filter_map (g : Bool) (stmts : List Node) :
    rwStmtsGiven g stmts =
      (stmts.filter (fun s => !isGivenRemovedStmt s)).map (rwNode g) := by
  induction stmts with
  | nil => rfl
  | cons s rest ih =>
      by_cases h : isGivenRemovedStmt s
      · simp [rwStmtsGiven, h, List.filter_cons, ih]
      · simp [rwStmtsGiven, h, List.filter_cons, ih]

/-- C7: for a `given` callback whose direct statements contain exactly one
assignment `$inputs = EXPR` and exactly one `$subject = EXPR'`, the
generated configuration contains `inputs: () => EXPR` — a zero-argument
factory whose body is `EXPR` — and `subject: ($inputs) => EXPR'` — a
one-argument factory with parameter `$inputs` whose body is `EXPR'`, so
occurrences of `$inputs` in `EXPR'` bind to that parameter; in both cases an
object-literal-shaped expression (optionally wrapped in `as` / `satisfies` /
parentheses) is parenthesized; and both assignment statements (and only
they) are removed from the rewritten callback body. -/
theorem c7_given_factory_extraction (stmts : List Node) (eI eS : Node)
    (hI : stmts.filter (fun s => isInputsAssignment s) =
      [Node.exprStmt (Node.assign (Node.ident "$inputs") eI)])
    (hS : stmts.filter (fun s => isSubjectAssignment s) =
      [Node.exprStmt (Node.assign (Node.ident "$subject") eS)]) :
    (givenScan stmts).inputsE =
      some (if isObjectLiteralLike eI then Node.paren eI else eI) ∧
    (givenScan stmts).subjectE =
      some (if isObjectLiteralLike eS then Node.paren eS else eS) ∧
    (givenScan stmts).removed = stmts.filter (fun s => isGivenRemovedStmt s) ∧
    mkConfigGiven (givenScan stmts) =
      Node.objLit
        [Node.objField "inputs" (Node.arrowE false []
          (if isObjectLiteralLike eI then Node.paren eI else eI)),
         Node.objField "subject" (Node.arrowE false ["$inputs"]
          (if isObjectLiteralLike eS then Node.paren eS else eS))] ∧
    ∀ g : Bool, rwStmtsGiven g stmts =
      (stmts.filter (fun s => !isGivenRemovedStmt s)).map (rwNode g) := by
  have h1 := givenScan_foldl_inputsE stmts _ hI ⟨none, none, []⟩
  have h2 := givenScan_foldl_subjectE stmts _ hS ⟨none, none, []⟩
  have h3 := givenScan_foldl_removed stmts ⟨none, none, []⟩
  simp only [wrapExpr, rhsOf] at h1 h2
  refine ⟨h1, h2, by simpa [givenScan] using h3, ?_, fun g => rwStmtsGiven_eq_filter_map g stmts⟩
  rw [mkConfigGiven]
  rw [show (givenScan stmts).inputsE =
    some (if isObjectLiteralLike eI then Node.paren eI else eI) from h1]
  rw [show (givenScan stmts).subjectE =
    some (if isObjectLiteralLike eS then Node.paren eS else eS) from h2]
  rfl

/-- Witness for C7 on the statements
`$inputs = {}` , `$subject = x` , `noop()`. -/
theorem c7_given_factory_extraction_witness :
    stmtsGivenWitness.filter (fun s => isInputsAssignment s) =
      [Node.exprStmt (Node.assign (Node.ident "$inputs") (Node.objLit []))] ∧
    stmtsGivenWitness.filter (fun s => isSubjectAssignment s) =
      [Node.exprStmt (Node.assign (Node.ident "$subject") (Node.ident "x"))] ∧
    ((givenScan stmtsGivenWitness).inputsE =
      some (if isObjectLiteralLike (Node.objLit []) then Node.paren (Node.objLit [])
            else Node.objLit []) ∧
     (givenScan stmtsGivenWitness).subjectE =
      some (if isObjectLiteralLike (Node.ident "x") then Node.paren (Node.ident "x")
            else Node.ident "x") ∧
     (givenScan stmtsGivenWitness).removed =
      stmtsGivenWitness.filter (fun s => isGivenRemovedStmt s) ∧
     mkConfigGiven (givenScan stmtsGivenWitness) =
      Node.objLit
        [Node.objField "inputs" (Node.arrowE false []
          (if isObjectLiteralLike (Node.objLit []) then Node.paren (Node.objLit [])
           else Node.objLit [])),
         Node.objField "subject" (Node.arrowE false ["$inputs"]
          (if isObjectLiteralLike (Node.ident "x") then Node.paren (Node.ident "x")
           else Node.ident "x"))] ∧
     ∀ g : Bool, rwStmtsGiven g stmtsGivenWitness =
      (stmtsGivenWitness.filter (fun s => !isGivenRemovedStmt s)).map (rwNode g)) :=
  ⟨rfl, rfl,
    c7_given_factory_extraction stmtsGivenWitness (Node.objLit []) (Node.ident "x") rfl rfl⟩

/-- Lemma: `containsBddSatList` distributes over append. -/
theorem containsBddSatList_append (q : BddKind → Bool) (l1 l2 : List Node) :
    containsBddSatList q (l1 ++ l2) =
      (containsBddSatList q l1 || containsBddSatList q l2) := by
  induction l1 with
  | nil => simp [containsBddSatList]
  | cons n ns ih => simp [containsBddSatList, ih, Bool.or_assoc]

/-- The callee of a recognized call (a bare identifier or a one-level
property access on one) contains no `given` call. -/
theorem parse_some_callee_no_given (callee : Node) (k : BddKind) (m : Option ExecMode)
    (hp : parseBddKind callee = some (k, m)) : containsGiven callee = false := by
  unfold parseBddKind at hp
  split at hp
  · rfl
  · rfl
  · rfl
  · split at hp
    · split at hp
      · rfl
      · rfl
      · exact Option.noConfusion hp
    · exact Option.noConfusion hp
  · exact Option.noConfusion hp

/-- The internal registration names are not recognized. -/
theorem parse_helperName_none (k : BddKind) :
    parseBddKind (Node.ident (helperName k)) = none := by
  cases k <;> rfl

/-- The execution-mode argument (`describe.skip`, `test.only`, ...) contains
no recognized call. -/
theorem modeArg_no_given (k : BddKind) (m : ExecMode) :
    containsGiven (modeArg k m) = false := by
  cases k <;> cases m <;> rfl

/-- A statement recognized as a `$inputs = EXPR` assignment has that exact
shape. -/
theorem isInputsAssignment_shape (s : Node) (h : isInputsAssignment s = true) :
    ∃ r, s = Node.exprStmt (Node.assign (Node.ident "$inputs") r) := by
  unfold isInputsAssignment at h
  split at h
  · exact ⟨_, rfl⟩
  · exact Bool.noConfusion h

/-- A statement recognized as a `$subject = EXPR` assignment has that exact
shape. -/
theorem isSubjectAssignment_shape (s : Node) (h : isSubjectAssignment s = true) :
    ∃ r, s = Node.exprStmt (Node.assign (Node.ident "$subject") r) := by
  unfold isSubjectAssignment at h
  split at h
  · exact ⟨_, rfl⟩
  · exact Bool.noConfusion h

/-- A statement with no recognized call has none in its assignment
right-hand side either. -/
theorem containsGiven_rhs_of_no_bdd (l r : Node)
    (h : containsBdd (Node.exprStmt (Node.assign l r)) = false) :
    containsGiven (wrapExpr r) = false := by
  simp only [containsBdd, containsBddSat, Bool.or_eq_false_iff] at h
  have hr : containsBdd r = false := h.2
  have hg : containsGiven r = false := containsBddSat_of_no_bdd r _ hr
  unfold wrapExpr
  split
  · simpa [containsGiven, containsBddSat] using hg
  · exact hg

/-- Origin of the scanned inputs expression: it is the (wrapped) right-hand
side of some `$inputs` assignment among the statements. -/
theorem givenScan_inputsE_origin (stmts : List Node) :
    ∀ (acc : GivenScan) (e : Node),
      (stmts.foldl givenScanStep acc).inputsE = some e →
      acc.inputsE = some e ∨
        ∃ s ∈ stmts, isInputsAssignment s = true ∧ e = wrapExpr (rhsOf s) := by
  induction stmts with
  | nil => exact fun acc e h => Or.inl h
  | cons s rest ih =>
      intro acc e h
      rw [List.foldl_cons] at h
      rcases ih (givenScanStep acc s) e h with h2 | ⟨t, ht, hta, hte⟩
      · by_cases h1 : isInputsAssignment s
        · rw [show givenScanStep acc s =
            { acc with inputsE := some (wrapExpr (rhsOf s)), removed := acc.removed ++ [s] }
            from by simp [givenScanStep, h1]] at h2
          exact Or.inr ⟨s, by simp, h1, (Option.some.inj h2).symm⟩
        · by_cases hsub : isSubjectAssignment s
          · rw [show givenScanStep acc s =
              { acc with subjectE := some (wrapExpr (rhsOf s)), removed := acc.removed ++ [s] }
              from by simp [givenScanStep, h1, hsub]] at h2
            exact Or.inl h2
          · rw [show givenScanStep acc s = acc from by simp [givenScanStep, h1, hsub]] at h2
            exact Or.inl h2
      · exact Or.inr ⟨t, by simp [ht], hta, hte⟩

/-- Origin of the scanned subject expression. -/
theorem givenScan_subjectE_origin (stmts : List Node) :
    ∀ (acc : GivenScan) (e : Node),
      (stmts.foldl givenScanStep acc).subjectE = some e →
      acc.subjectE = some e ∨
        ∃ s ∈ stmts, isSubjectAssignment s = true ∧ e = wrapExpr (rhsOf s) := by
  induction stmts with
  | nil => exact fun acc e h => Or.inl h
  | cons s rest ih =>
      intro acc e h
      rw [List.foldl_cons] at h
      rcases ih (givenScanStep acc s) e h with h2 | ⟨t, ht, hta, hte⟩
      · by_cases hsub : isSubjectAssignment s
        · have h1 : isInputsAssignment s = false := by
            unfold isInputsAssignment
            split
            · exact Bool.noConfusion hsub
            · rfl
          rw [show givenScanStep acc s =
            { acc with subjectE := some (wrapExpr (rhsOf s)), removed := acc.removed ++ [s] }
            from by simp [givenScanStep, h1, hsub]] at h2
          exact Or.inr ⟨s, by simp, hsub, (Option.some.inj h2).symm⟩
        · by_cases h1 : isInputsAssignment s
          · rw [show givenScanStep acc s =
              { acc with inputsE := some (wrapExpr (rhsOf s)), removed := acc.removed ++ [s] }
              from by simp [givenScanStep, h1]] at h2
            exact Or.inl h2
          · rw [show givenScanStep acc s = acc from by simp [givenScanStep, h1, hsub]] at h2
            exact Or.inl h2
      · exact Or.inr ⟨t, by simp [ht], hta, hte⟩

/-- Pointwise-absent recognized calls give an absent list check. -/
theorem containsBddSatList_eq_false_of_all (q : BddKind → Bool) (l : List Node)
    (h : ∀ s ∈ l, containsBddSat q s = false) : containsBddSatList q l = false := by
  induction l with
  | nil => rfl
  | cons n ns ih =>
      simp only [containsBddSatList, Bool.or_eq_false_iff]
      exact ⟨h n (by simp), ih fun s hs => h s (by simp [hs])⟩

/-- Standalone form of the `transformWhen` bucket characterization. -/
theorem classifyWhenStmts_eq_filters (stmts : List Node) :
    classifyWhenStmts stmts =
      (stmts.filter (fun s => isInputsModifier s),
       stmts.filter (fun s => !isInputsModifier s && isPerformStatement s),
       stmts.filter (fun s => !isInputsModifier s && !isPerformStatement s)) := by
  induction stmts with
  | nil => rfl
  | cons s rest ih =>
      by_cases h1 : isInputsModifier s
      · simp [classifyWhenStmts, List.filter_cons, h1, ih]
      · by_cases h2 : isPerformStatement s
        · simp [classifyWhenStmts, List.filter_cons, h1, h2, ih]
        · simp [classifyWhenStmts, List.filter_cons, h1, h2, ih]

/-- If no statement a `when` rewrite moves into the configuration object
contains a recognized call, the generated configuration contains no
recognized `given` call. -/
theorem mkConfigWhen_no_given (stmts : List Node)
    (h : ∀ s ∈ stmts, isWhenRemovedStmt s = true → containsBdd s = false) :
    containsGiven (mkConfigWhen stmts) = false := by
  have hmod : containsBddSatList (fun k => k == BddKind.givenK)
      (stmts.filter (fun s => isInputsModifier s)) = false := by
    apply containsBddSatList_eq_false_of_all
    intro s hs
    rw [List.mem_filter] at hs
    have hb : containsBdd s = false :=
      h s hs.1 (by simp [isWhenRemovedStmt, hs.2])
    exact containsBddSat_of_no_bdd s _ hb
  have hperf : containsBddSatList (fun k => k == BddKind.givenK)
      (stmts.filter (fun s => !isInputsModifier s && isPerformStatement s)) = false := by
    apply containsBddSatList_eq_false_of_all
    intro s hs
    rw [List.mem_filter] at hs
    have hp : isPerformStatement s = true := by
      have := hs.2
      simp only [Bool.and_eq_true] at this
      exact this.2
    have hb : containsBdd s = false :=
      h s hs.1 (by simp [isWhenRemovedStmt, hp])
    exact containsBddSat_of_no_bdd s _ hb
  unfold mkConfigWhen
  rw [classifyWhenStmts_eq_filters]
  simp only [containsGiven, containsBddSat]
  rw [containsBddSatList_append]
  simp only [Bool.or_eq_false_iff]
  constructor
  · split
    · rfl
    · simpa [containsBddSatList, containsBddSat] using hmod
  · split
    · rfl
    · simpa [containsBddSatList, containsBddSat] using hperf

/-- If no factory-assignment statement of a `given` callback contains a
recognized call, the generated configuration contains no recognized `given`
call. -/
theorem mkConfigGiven_no_given (stmts : List Node)
    (h : ∀ s ∈ stmts, isGivenRemovedStmt s = true → containsBdd s = false) :
    containsGiven (mkConfigGiven (givenScan stmts)) = false := by
  have hIE : ∀ e, (givenScan stmts).inputsE = some e → containsGiven e = false := by
    intro e he
    rcases givenScan_inputsE_origin stmts ⟨none, none, []⟩ e he with habs | ⟨s, hs, ha, hemk⟩
    · exact Option.noConfusion habs
    · obtain ⟨r, hr⟩ := isInputsAssignment_shape s ha
      subst hr
      have hb : containsBdd (Node.exprStmt (Node.assign (Node.ident "$inputs") r)) = false :=
        h _ hs (by simp [isGivenRemovedStmt, ha])
      rw [hemk]
      exact containsGiven_rhs_of_no_bdd _ r hb
  have hSE : ∀ e, (givenScan stmts).subjectE = some e → containsGiven e = false := by
    intro e he
    rcases givenScan_subjectE_origin stmts ⟨none, none, []⟩ e he with habs | ⟨s, hs, ha, hemk⟩
    · exact Option.noConfusion habs
    · obtain ⟨r, hr⟩ := isSubjectAssignment_shape s ha
      subst hr
      have hb : containsBdd (Node.exprStmt (Node.assign (Node.ident "$subject") r)) = false :=
        h _ hs (by simp [isGivenRemovedStmt, ha])
      rw [hemk]
      exact containsGiven_rhs_of_no_bdd _ r hb
  unfold mkConfigGiven
  simp only [containsGiven, containsBddSat]
  rw [containsBddSatList_append]
  simp only [Bool.or_eq_false_iff]
  constructor
  · cases hie : (givenScan stmts).inputsE with
    | none => rfl
    | some e =>
        simpa [containsBddSatList, containsBddSat] using hIE e hie
  · cases hse : (givenScan stmts).subjectE with
    | none => rfl
    | some e =>
        simpa [containsBddSatList, containsBddSat] using hSE e hse

/-- Good recognized calls pass their early-return checks, and their
configuration object holds no recognized `given` call. -/
theorem goodNode_call_parts (callee : Node) (args : List Node) (k : BddKind)
    (m : Option ExecMode) (hp : parseBddKind callee = some (k, m))
    (hg : goodNode (Node.call callee args) = true) :
    goodNode callee = true ∧ goodList args = true ∧ shouldRewrite k args = true ∧
    (k ≠ BddKind.itK → containsGiven (configFor k args) = false) := by
  unfold goodNode at hg
  rw [hp] at hg
  simp only [Bool.and_eq_true] at hg
  obtain ⟨hloc, hcal, hargs⟩ := hg
  refine ⟨hcal, hargs, ?_, ?_⟩
  · cases k with
    | itK =>
        cases hcb : getCallbackArg args with
        | none =>
            have hloc2 : (none : Option Node).isSome = true := by
              rw [hcb] at hloc; exact hloc
            simp at hloc2
        | some cb => simp [shouldRewrite, hcb]
    | givenK =>
        cases hcb : getCallbackArg args with
        | none =>
            have hloc2 : False := by rw [hcb] at hloc; exact Bool.noConfusion hloc
            exact absurd hloc2 not_false
        | some cb =>
            have hloc2 : (match getBodyStatements cb with
                | some stmts => stmts.all fun s => !isGivenRemovedStmt s || !containsBdd s
                | none => false) = true := by
              rw [hcb] at hloc; exact hloc
            cases hbs : getBodyStatements cb with
            | none => rw [hbs] at hloc2; exact Bool.noConfusion hloc2
            | some stmts => simp [shouldRewrite, hcb, hbs]
    | whenK =>
        cases hcb : getCallbackArg args with
        | none =>
            have hloc2 : False := by rw [hcb] at hloc; exact Bool.noConfusion hloc
            exact absurd hloc2 not_false
        | some cb =>
            have hloc2 : (match getBodyStatements cb with
                | some stmts => stmts.all fun s => !isWhenRemovedStmt s || !containsBdd s
                | none => false) = true := by
              rw [hcb] at hloc; exact hloc
            cases hbs : getBodyStatements cb with
            | none => rw [hbs] at hloc2; exact Bool.noConfusion hloc2
            | some stmts => simp [shouldRewrite, hcb, hbs]
  · cases k with
    | itK => exact fun hne => absurd rfl hne
    | givenK =>
        intro _
        cases hcb : getCallbackArg args with
        | none =>
            have hloc2 : False := by rw [hcb] at hloc; exact Bool.noConfusion hloc
            exact absurd hloc2 not_false
        | some cb =>
            have hloc2 : (match getBodyStatements cb with
                | some stmts => stmts.all fun s => !isGivenRemovedStmt s || !containsBdd s
                | none => false) = true := by
              rw [hcb] at hloc; exact hloc
            cases hbs : getBodyStatements cb with
            | none => rw [hbs] at hloc2; exact Bool.noConfusion hloc2
            | some stmts =>
                rw [hbs] at hloc2
                simp only [configFor, hcb, hbs]
                apply mkConfigGiven_no_given
                intro s hs hrem
                have hall := (List.all_eq_true.mp hloc2) s hs
                simp only [Bool.or_eq_true, Bool.not_eq_eq_eq_not, Bool.not_true] at hall
                rcases hall with h2 | h2
                · rw [hrem] at h2; exact Bool.noConfusion h2
                · simpa using h2
    | whenK =>
        intro _
        cases hcb : getCallbackArg args with
        | none =>
            have hloc2 : False := by rw [hcb] at hloc; exact Bool.noConfusion hloc
            exact absurd hloc2 not_false
        | some cb =>
            have hloc2 : (match getBodyStatements cb with
                | some stmts => stmts.all fun s => !isWhenRemovedStmt s || !containsBdd s
                | none => false) = true := by
              rw [hcb] at hloc; exact hloc
            cases hbs : getBodyStatements cb with
            | none => rw [hbs] at hloc2; exact Bool.noConfusion hloc2
            | some stmts =>
                rw [hbs] at hloc2
                simp only [configFor, hcb, hbs]
                apply mkConfigWhen_no_given
                intro s hs hrem
                have hall := (List.all_eq_true.mp hloc2) s hs
                simp only [Bool.or_eq_true, Bool.not_eq_eq_eq_not, Bool.not_true] at hall
                rcases hall with h2 | h2
                · rw [hrem] at h2; exact Bool.noConfusion h2
                · simpa using h2

/-- Rewriting a call expression yields a call expression. -/
theorem rwNode_call_head (g : Bool) (c : Node) (as2 : List Node) :
    ∃ c2 as3, rwNode g (Node.call c as2) = Node.call c2 as3 := by
  cases hp : parseBddKind c with
  | none => exact ⟨rwNode g c, rwList g as2, by simp [rwNode, hp]⟩
  | some kv =>
      obtain ⟨k, m⟩ := kv
      by_cases h1 : (k == BddKind.givenK || g) = true
      · by_cases h2 : shouldRewrite k as2 = true
        · exact ⟨Node.ident (helperName k),
            assembleArgs k m as2 (rwArgsFwd k (g || k == BddKind.givenK) as2),
            by simp [rwNode, hp, h1, h2]⟩
        · exact ⟨c, rwList (g || k == BddKind.givenK) as2,
            by simp [rwNode, hp, h1, h2]⟩
      · exact ⟨c, rwList (g || k == BddKind.givenK) as2,
          by simp [rwNode, hp, h1]⟩

/-- Only an identifier rewrites to an identifier. -/
theorem rwNode_ident_inv (g : Bool) (n : Node) (nm : String)
    (h : rwNode g n = Node.ident nm) : n = Node.ident nm := by
  cases n with
  | ident nm2 => exact h
  | call c as2 =>
      obtain ⟨c2, as3, heq⟩ := rwNode_call_head g c as2
      rw [heq] at h
      exact Node.noConfusion h
  | strLit s => exact h
  | numLit v => exact h
  | importNamed ns => exact Node.noConfusion h
  | propAccess o p => exact Node.noConfusion h
  | arrowB a ps ss => exact Node.noConfusion h
  | arrowE a ps b => exact Node.noConfusion h
  | funcB a ps ss => exact Node.noConfusion h
  | assign l r => exact Node.noConfusion h
  | objLit fs => exact Node.noConfusion h
  | objField nm2 v => exact Node.noConfusion h
  | asCast e => exact Node.noConfusion h
  | satCast e => exact Node.noConfusion h
  | paren e => exact Node.noConfusion h
  | exprStmt e => exact Node.noConfusion h
  | many ns => exact Node.noConfusion h

/-- Only an import declaration rewrites to an import declaration (and it is
left unchanged). -/
theorem rwNode_importNamed_inv (g : Bool) (n : Node) (ns : List String)
    (h : rwNode g n = Node.importNamed ns) : n = Node.importNamed ns := by
  cases n with
  | importNamed ms => exact h
  | call c as2 =>
      obtain ⟨c2, as3, heq⟩ := rwNode_call_head g c as2
      rw [heq] at h
      exact Node.noConfusion h
  | ident nm2 => exact Node.noConfusion h
  | strLit s => exact Node.noConfusion h
  | numLit v => exact Node.noConfusion h
  | propAccess o p => exact Node.noConfusion h
  | arrowB a ps ss => exact Node.noConfusion h
  | arrowE a ps b => exact Node.noConfusion h
  | funcB a ps ss => exact Node.noConfusion h
  | assign l r => exact Node.noConfusion h
  | objLit fs => exact Node.noConfusion h
  | objField nm2 v => exact Node.noConfusion h
  | asCast e => exact Node.noConfusion h
  | satCast e => exact Node.noConfusion h
  | paren e => exact Node.noConfusion h
  | exprStmt e => exact Node.noConfusion h
  | many ns2 => exact Node.noConfusion h

/-- Rewriting never turns an unrecognized callee into a recognized one. -/
theorem parseBddKind_rwNode_none (g : Bool) (callee : Node)
    (h : parseBddKind callee = none) : parseBddKind (rwNode g callee) = none := by
  cases callee with
  | ident nm => exact h
  | propAccess o p =>
      simp only [rwNode]
      cases hX : rwNode g o with
      | ident nm2 =>
          have ho : o = Node.ident nm2 := rwNode_ident_inv g o nm2 hX
          subst ho
          exact h
      | call c2 as3 => rfl
      | strLit s => rfl
      | numLit v => rfl
      | propAccess o2 p2 => rfl
      | arrowB a ps ss => rfl
      | arrowE a ps b => rfl
      | funcB a ps ss => rfl
      | assign l r => rfl
      | objLit fs => rfl
      | objField nm2 v => rfl
      | asCast e => rfl
      | satCast e => rfl
      | paren e => rfl
      | exprStmt e => rfl
      | importNamed ns => rfl
      | many ns => rfl
  | call c as2 =>
      obtain ⟨c2, as3, heq⟩ := rwNode_call_head g c as2
      rw [heq]
      rfl
  | strLit s => rfl
  | numLit v => rfl
  | arrowB a ps ss => rfl
  | arrowE a ps b => rfl
  | funcB a ps ss => rfl
  | assign l r => rfl
  | objLit fs => rfl
  | objField nm2 v => rfl
  | asCast e => rfl
  | satCast e => rfl
  | paren e => rfl
  | exprStmt e => rfl
  | importNamed ns => rfl
  | many ns => rfl

/-- The assembled argument list of a rewritten call contains no recognized
`given` call when its rewritten base and its configuration object contain
none: the appended `__ctx` identifier and the execution-mode argument
contribute nothing. -/
theorem assembleArgs_no_given (k : BddKind) (m : Option ExecMode)
    (args base : List Node)
    (hbase : containsBddSatList (fun x => x == BddKind.givenK) base = false)
    (hcfg : k ≠ BddKind.itK → containsGiven (configFor k args) = false) :
    containsBddSatList (fun x => x == BddKind.givenK)
      (assembleArgs k m args base) = false := by
  have hctx : containsBddSat (fun x => x == BddKind.givenK) (Node.ident "__ctx") = false := rfl
  have hmode : ∀ mode, containsBddSat (fun x => x == BddKind.givenK) (modeArg k mode) = false :=
    fun mode => modeArg_no_given k mode
  cases k with
  | itK =>
      cases m with
      | none =>
          simp only [assembleArgs]
          simp [containsBddSatList_append, containsBddSatList, hbase, hctx]
      | some mode =>
          simp only [assembleArgs]
          simp [containsBddSatList_append, containsBddSatList, hbase, hctx, hmode mode]
  | givenK =>
      have hc : containsBddSat (fun x => x == BddKind.givenK)
          (configFor BddKind.givenK args) = false :=
        hcfg (fun hh => BddKind.noConfusion hh)
      cases base with
      | nil =>
          cases m with
          | none => simp [assembleArgs, containsBddSatList]
          | some mode =>
              simp [assembleArgs, containsBddSatList, hmode mode]
      | cons d rest =>
          rw [containsBddSatList] at hbase
          simp only [Bool.or_eq_false_iff] at hbase
          cases m with
          | none =>
              simp only [assembleArgs]
              simp [containsBddSatList, hbase.1, hbase.2, hc]
          | some mode =>
              simp only [assembleArgs]
              simp [containsBddSatList, containsBddSatList_append,
                hbase.1, hbase.2, hc, hmode mode]
  | whenK =>
      have hc : containsBddSat (fun x => x == BddKind.givenK)
          (configFor BddKind.whenK args) = false :=
        hcfg (fun hh => BddKind.noConfusion hh)
      cases base with
      | nil =>
          cases m with
          | none => simp [assembleArgs, containsBddSatList, hctx]
          | some mode =>
              simp [assembleArgs, containsBddSatList, containsBddSatList_append,
                hctx, hmode mode]
      | cons d rest =>
          rw [containsBddSatList] at hbase
          simp only [Bool.or_eq_false_iff] at hbase
          cases m with
          | none =>
              simp only [assembleArgs]
              simp [containsBddSatList, containsBddSatList_append,
                hbase.1, hbase.2, hc, hctx]
          | some mode =>
              simp only [assembleArgs]
              simp [containsBddSatList, containsBddSatList_append,
                hbase.1, hbase.2, hc, hctx, hmode mode]

mutual
/-- Core of the idempotence argument: on a good subtree (every recognized
call has an inline callback, block-bodied for `given`/`when`, and no moved
statement carries a BDD call), the rewriter's output contains no recognized
`given` call: every `given` is renamed to the unrecognized `__given`, and
configuration objects only receive statements free of recognized calls. -/
theorem rwNode_no_given (n : Node) :
    ∀ g : Bool, goodNode n = true →
      containsBddSat (fun x => x == BddKind.givenK) (rwNode g n) = false := by
  cases n with
  | ident nm => exact fun g h => rfl
  | strLit s => exact fun g h => rfl
  | numLit v => exact fun g h => rfl
  | importNamed ns => exact fun g h => rfl
  | propAccess o p => exact fun g h => rwNode_no_given o g h
  | call callee args =>
      intro g hg
      cases hp : parseBddKind callee with
      | none =>
          have hg2 : (goodNode callee && goodList args) = true := by
            unfold goodNode at hg
            rw [hp] at hg
            exact hg
          simp only [Bool.and_eq_true] at hg2
          simp [rwNode, hp, containsBddSat,
            parseBddKind_rwNode_none g callee hp,
            rwNode_no_given callee g hg2.1, rwList_no_given args g hg2.2]
      | some kv =>
          obtain ⟨k, m⟩ := kv
          obtain ⟨hcal, hargs, hsr, hcfg⟩ := goodNode_call_parts callee args k m hp hg
          cases hcol : (k == BddKind.givenK || g) with
          | true =>
              simp only [rwNode, hp, hcol, hsr, if_true]
              simp [containsBddSat, parse_helperName_none k,
                assembleArgs_no_given k m args _
                  (rwArgsFwd_no_given args k (g || (k == BddKind.givenK)) hargs) hcfg]
          | false =>
              have hkng : (k == BddKind.givenK) = false := by
                rcases Bool.eq_false_or_eq_true (k == BddKind.givenK) with hh | hh
                · rw [hh] at hcol; exact Bool.noConfusion hcol
                · exact hh
              have hcno : containsBddSat (fun x => x == BddKind.givenK) callee = false :=
                parse_some_callee_no_given callee k m hp
              simp only [rwNode, hp, hcol, Bool.false_eq_true, if_false]
              simp [containsBddSat, hp, hkng, hcno,
                rwList_no_given args g hargs,
                rwList_no_given args (g || (k == BddKind.givenK)) hargs]
  | arrowB a ps stmts =>
      intro g h
      simp [rwNode, containsBddSat, rwList_no_given stmts g h]
  | arrowE a ps body =>
      intro g h
      simp [rwNode, containsBddSat, rwNode_no_given body g h]
  | funcB a ps stmts =>
      intro g h
      simp [rwNode, containsBddSat, rwList_no_given stmts g h]
  | assign l r =>
      intro g h
      have h2 : (goodNode l && goodNode r) = true := h
      simp only [Bool.and_eq_true] at h2
      simp [rwNode, containsBddSat,
        rwNode_no_given l g h2.1, rwNode_no_given r g h2.2]
  | objLit fs =>
      intro g h
      simp [rwNode, containsBddSat, rwList_no_given fs g h]
  | objField nm v =>
      intro g h
      simp [rwNode, containsBddSat, rwNode_no_given v g h]
  | asCast e =>
      intro g h
      simp [rwNode, containsBddSat, rwNode_no_given e g h]
  | satCast e =>
      intro g h
      simp [rwNode, containsBddSat, rwNode_no_given e g h]
  | paren e =>
      intro g h
      simp [rwNode, containsBddSat, rwNode_no_given e g h]
  | exprStmt e =>
      intro g h
      simp [rwNode, containsBddSat, rwNode_no_given e g h]
  | many ns =>
      intro g h
      simp [rwNode, containsBddSat, rwList_no_given ns g h]

/-- List version of `rwNode_no_given`. -/
theorem rwList_no_given (l : List Node) :
    ∀ g : Bool, goodList l = true →
      containsBddSatList (fun x => x == BddKind.givenK) (rwList g l) = false := by
  cases l with
  | nil => exact fun g h => rfl
  | cons n ns =>
      intro g h
      have h2 : (goodNode n && goodList ns) = true := h
      simp only [Bool.and_eq_true] at h2
      simp [rwList, containsBddSatList,
        rwNode_no_given n g h2.1, rwList_no_given ns g h2.2]

/-- The rewritten argument list of a collected call contains no recognized
`given` call. -/
theorem rwArgsFwd_no_given (l : List Node) :
    ∀ (k : BddKind) (g : Bool), goodList l = true →
      containsBddSatList (fun x => x == BddKind.givenK) (rwArgsFwd k g l) = false := by
  cases l with
  | nil => exact fun k g h => rfl
  | cons a as =>
      intro k g h
      have h2 : (goodNode a && goodList as) = true := h
      simp only [Bool.and_eq_true] at h2
      cases hfn : (isFunctionNode a && !(as.any isFunctionNode)) with
      | true =>
          have hf : isFunctionNode a = true := by
            have hfn2 := hfn
            simp only [Bool.and_eq_true] at hfn2
            exact hfn2.1
          simp [rwArgsFwd, hfn, containsBddSatList,
            rwCallback_no_given a k g hf h2.1, rwList_no_given as g h2.2]
      | false =>
          simp [rwArgsFwd, hfn, containsBddSatList,
            rwNode_no_given a g h2.1, rwArgsFwd_no_given as k g h2.2]

/-- The rewritten callback of a collected call contains no recognized
`given` call. -/
theorem rwCallback_no_given (cb : Node) :
    ∀ (k : BddKind) (g : Bool), isFunctionNode cb = true → goodNode cb = true →
      containsBddSat (fun x => x == BddKind.givenK) (rwCallback k g cb) = false := by
  cases cb with
  | arrowB a ps stmts =>
      intro k g hfn hgd
      cases k with
      | givenK =>
          simp [rwCallback, containsBddSat, rwStmtsGiven_no_given stmts g hgd]
      | whenK =>
          simp [rwCallback, containsBddSat, rwStmtsWhen_no_given stmts g hgd]
      | itK =>
          simp [rwCallback, containsBddSat, rwList_no_given stmts g hgd]
  | arrowE a ps body =>
      intro k g hfn hgd
      cases k with
      | givenK => simp [rwCallback, containsBddSat, rwNode_no_given body g hgd]
      | whenK => simp [rwCallback, containsBddSat, rwNode_no_given body g hgd]
      | itK => simp [rwCallback, containsBddSat, rwNode_no_given body g hgd]
  | funcB a ps stmts =>
      intro k g hfn hgd
      cases k with
      | givenK =>
          simp [rwCallback, containsBddSat, rwStmtsGiven_no_given stmts g hgd]
      | whenK =>
          simp [rwCallback, containsBddSat, rwStmtsWhen_no_given stmts g hgd]
      | itK =>
          simp [rwCallback, containsBddSat, rwList_no_given stmts g hgd]
  | ident nm => exact fun k g hfn hgd => Bool.noConfusion hfn
  | strLit s => exact fun k g hfn hgd => Bool.noConfusion hfn
  | numLit v => exact fun k g hfn hgd => Bool.noConfusion hfn
  | propAccess o p => exact fun k g hfn hgd => Bool.noConfusion hfn
  | call c as2 => exact fun k g hfn hgd => Bool.noConfusion hfn
  | assign l r => exact fun k g hfn hgd => Bool.noConfusion hfn
  | objLit fs => exact fun k g hfn hgd => Bool.noConfusion hfn
  | objField nm v => exact fun k g hfn hgd => Bool.noConfusion hfn
  | asCast e => exact fun k g hfn hgd => Bool.noConfusion hfn
  | satCast e => exact fun k g hfn hgd => Bool.noConfusion hfn
  | paren e => exact fun k g hfn hgd => Bool.noConfusion hfn
  | exprStmt e => exact fun k g hfn hgd => Bool.noConfusion hfn
  | importNamed ns => exact fun k g hfn hgd => Bool.noConfusion hfn
  | many ns => exact fun k g hfn hgd => Bool.noConfusion hfn

/-- The rewritten `given` callback body contains no recognized `given`
call. -/
theorem rwStmtsGiven_no_given (l : List Node) :
    ∀ g : Bool, goodList l = true →
      containsBddSatList (fun x => x == BddKind.givenK) (rwStmtsGiven g l) = false := by
  cases l with
  | nil => exact fun g h => rfl
  | cons s ss =>
      intro g h
      have h2 : (goodNode s && goodList ss) = true := h
      simp only [Bool.and_eq_true] at h2
      cases hrem : isGivenRemovedStmt s with
      | true => simp [rwStmtsGiven, hrem, rwStmtsGiven_no_given ss g h2.2]
      | false =>
          simp [rwStmtsGiven, hrem, containsBddSatList,
            rwNode_no_given s g h2.1, rwStmtsGiven_no_given ss g h2.2]

/-- The rewritten `when` callback body contains no recognized `given`
call. -/
theorem rwStmtsWhen_no_given (l : List Node) :
    ∀ g : Bool, goodList l = true →
      containsBddSatList (fun x => x == BddKind.givenK) (rwStmtsWhen g l) = false := by
  cases l with
  | nil => exact fun g h => rfl
  | cons s ss =>
      intro g h
      have h2 : (goodNode s && goodList ss) = true := h
      simp only [Bool.and_eq_true] at h2
      cases hrem : isWhenRemovedStmt s with
      | true => simp [rwStmtsWhen, hrem, rwStmtsWhen_no_given ss g h2.2]
      | false =>
          simp [rwStmtsWhen, hrem, containsBddSatList,
            rwNode_no_given s g h2.1, rwStmtsWhen_no_given ss g h2.2]
end

/-- The emitted helper-import list never names `given`. -/
theorem usedHelperNames_no_given (cs : List CollectedCall) :
    "given" ∉ usedHelperNames cs := by
  unfold usedHelperNames
  split_ifs <;> decide

/-- The emitted vitest-import list never names `given`. -/
theorem usedVitestNames_no_given (cs : List CollectedCall) :
    "given" ∉ usedVitestNames cs := by
  unfold usedVitestNames
  split_ifs <;> decide

/-- The prepended import lines do not import `given`. -/
theorem importsGivenF_prelude (cs : List CollectedCall) :
    importsGivenF (preludeImports cs) = false := by
  unfold importsGivenF preludeImports
  cases hv : (usedVitestNames cs).isEmpty with
  | true => simp [usedHelperNames_no_given cs]
  | false => simp [usedHelperNames_no_given cs, usedVitestNames_no_given cs]

/-- Rewriting preserves the absence of a `given` named import. -/
theorem importsGivenF_rwList (g : Bool) (f : SourceFileAst)
    (h : importsGivenF f = false) : importsGivenF (rwList g f) = false := by
  induction f with
  | nil => rfl
  | cons s ss ih =>
      unfold importsGivenF at h ⊢
      rw [show rwList g (s :: ss) = rwNode g s :: rwList g ss from rfl]
      simp only [List.any_cons, Bool.or_eq_false_iff] at h ⊢
      refine ⟨?_, ih h.2⟩
      cases hX : rwNode g s with
      | importNamed ns =>
          have hs := rwNode_importNamed_inv g s ns hX
          subst hs
          exact h.1
      | ident nm => rfl
      | strLit s2 => rfl
      | numLit v => rfl
      | propAccess o p => rfl
      | call c as2 => rfl
      | arrowB a ps ss2 => rfl
      | arrowE a ps b => rfl
      | funcB a ps ss2 => rfl
      | assign l r => rfl
      | objLit fs => rfl
      | objField nm v => rfl
      | asCast e => rfl
      | satCast e => rfl
      | paren e => rfl
      | exprStmt e => rfl
      | many ns2 => rfl

/-- The prepended import lines contain no recognized `given` call. -/
theorem prelude_no_given (cs : List CollectedCall) :
    (preludeImports cs).any containsGiven = false := by
  unfold preludeImports
  cases hv : (usedVitestNames cs).isEmpty with
  | true => simp [containsGiven, containsBddSat]
  | false => simp [containsGiven, containsBddSat]

/-- C9 (amended): applying `transformBddSyntax` to the output of a previous
successful transform is a no-op — the second application returns unmodified
— *provided* every recognized call in the input was actually rewritten:
each `given`/`when` has an inline block-bodied callback, each `it` an inline
callback, and no statement moved into a configuration object contains a BDD
call (the `goodList` proviso), and the file does not import `given`.  Every
`given`/`when`/`it` callee then gets rewritten to an internal registration
name (`__given`/`__when`/`__it`) that is not recognized as a BDD call, so
the output contains no recognized `given` and nothing is collected.  Without
the proviso the claim fails: a recognized call whose callback is not inline
survives unrewritten and is collected again (see the counterexample). -/
theorem c9_transform_idempotent (f : SourceFileAst)
    (hgood : goodList f = true) (himp : importsGivenF f = false) :
    ∀ out, transformModel f = some out → transformModel out = none := by
  intro out hout
  unfold transformModel at hout
  rw [himp] at hout
  cases he : (collectFile f).isEmpty with
  | true =>
      rw [he] at hout
      simp at hout
  | false =>
      rw [he] at hout
      simp only [Bool.false_eq_true, if_false] at hout
      have hout2 : preludeImports (collectFile f) ++ rwList false f = out :=
        Option.some.inj hout
      subst hout2
      unfold transformModel
      have h1 : importsGivenF (preludeImports (collectFile f) ++ rwList false f) = false := by
        unfold importsGivenF
        rw [List.any_append]
        have ha : (preludeImports (collectFile f)).any (fun s =>
            match s with
            | Node.importNamed names => names.contains "given"
            | _ => false) = false := importsGivenF_prelude (collectFile f)
        have hb : (rwList false f).any (fun s =>
            match s with
            | Node.importNamed names => names.contains "given"
            | _ => false) = false := importsGivenF_rwList false f himp
        rw [ha, hb]
        rfl
      rw [h1]
      have h2 : ((collectFile (preludeImports (collectFile f) ++ rwList false f)).isEmpty) =
          true := by
        apply (collectFile_nil_iff _).mpr
        rw [List.any_append]
        have ha := prelude_no_given (collectFile f)
        have hb : (rwList false f).any containsGiven = false := by
          have hc := rwList_no_given f false hgood
          rw [containsBddSatList_eq_any] at hc
          exact hc
        rw [ha, hb]
        rfl
      rw [h2]
      simp

/-- C9 (counterexample): the file `given("not idempotent", cb)` — a stored
callback, so the call survives unrewritten — transforms successfully to the
synthetic import line plus the original source; transforming that output
again is *not* a no-op (the surviving `given` is collected once more and a
second import line would be prepended), refuting unconditional idempotence. -/
theorem c9_counterexample :
    transformModel fileStoredCb2 =
      some (Node.importNamed ["__given"] :: fileStoredCb2) ∧
    transformModel (Node.importNamed ["__given"] :: fileStoredCb2) ≠ none :=
  ⟨rfl, Option.ne_none_iff_isSome.mpr rfl⟩

/-- Witness for C9 (amended) on a well-formed file:
`given("a Foo", () => { $inputs = {}; it("works", () => {}); })`
transforms to `fileWellFormedOut`, and transforming that output returns
unmodified. -/
theorem c9_transform_idempotent_witness :
    goodList fileWellFormed = true ∧ importsGivenF fileWellFormed = false ∧
    transformModel fileWellFormed = some fileWellFormedOut ∧
    transformModel fileWellFormedOut = none :=
  ⟨rfl, rfl, rfl,
    c9_transform_idempotent fileWellFormed rfl rfl fileWellFormedOut rfl⟩
